import Mathlib

set_option linter.unusedSectionVars false

/-!
# Shallow embedding of the gnark SCS (PLONK-ish) builder API

This file embeds the gate-emission engine of `frontend/cs/scs/api.go`:
the term algebra, constant folding, gate splitting, boolean/selection
library, hints and commitments, together with a denotational semantics of
the emitted sparse constraints, and proves the specification claims about
them.

Builder internals that the API relies on but that are not part of the
source under study (`filterConstantSum`, `filterConstantProd`, `reduce`,
`splitSum`, `splitProd`, `newInternalVariable`, `addPlonkConstraint`,
`AssertIsBoolean`, `MarkBoolean`, `NewHint`, `bits.ToBinary`) are modelled
from the specification, as indicated in their doc comments.
-/

namespace SCS

/-- Identifier of an out-of-circuit hint function (solver registry). -/
inductive HintId where
  | invZero
  | commitPlaceholder
deriving DecidableEq

/-- Commitment tag of a gate: `0`, `COMMITTED` or `COMMITMENT` in the source. -/
inductive CommitTag where
  | none
  | committed
  | commitment
deriving DecidableEq

/-- `expr.Term[E]`: a coefficient-scaled reference to one wire. -/
structure Term (F : Type) where
  vid : Nat
  coeff : F
deriving DecidableEq

/-- A `frontend.Variable` operand: either a compile-time constant of the
field or a wire `Term` (the two-variant tagged union of the design notes). -/
inductive Var (F : Type) where
  | const : F → Var F
  | term : Term F → Var F
deriving DecidableEq

/-- `sparseR1C[E]`: one gate `qL·a + qR·b + qM·a·b + qO·o + qC = 0` over
wires `xa, xb, xc`, with an optional commitment tag. -/
structure Gate (F : Type) where
  xa : Nat
  xb : Nat
  xc : Nat
  qL : F
  qR : F
  qM : F
  qO : F
  qC : F
  tag : CommitTag
deriving DecidableEq

/-- A deferred hint request: function id, input operands, freshly
allocated output wires. -/
structure HintBinding (F : Type) where
  fid : HintId
  inputs : List (Var F)
  outputs : List Nat
deriving DecidableEq

/-- A recorded bit-decomposition request (the external sub-protocol used
by `Cmp`): input operand and little-endian list of bit wires. -/
structure Decomp (F : Type) where
  input : Var F
  bits : List Nat
deriving DecidableEq

/-- `constraint.PlonkCommitment`: bookkeeping of one `Commit` call. -/
structure PlonkCommitment where
  commitmentIndex : Nat
  committed : List Nat
deriving DecidableEq

/-- The builder / constraint-system state: monotone wire counter, ordered
gate list, boolean-marked terms, hint bindings, bit-decomposition
bindings, commitment bookkeeping and the small-field flag of the
underlying field. -/
structure BuilderState (F : Type) where
  nbVars : Nat
  gates : List (Gate F)
  booleans : List (Term F)
  hints : List (HintBinding F)
  decomps : List (Decomp F)
  commitments : List PlonkCommitment
  smallField : Bool
deriving DecidableEq

variable {F : Type} [Field F] [DecidableEq F]

/-- The all-zero gate (Go zero-value struct); gate literals override the
fields they set, like the source's struct literals. -/
def gate0 : Gate F :=
  { xa := 0, xb := 0, xc := 0, qL := 0, qR := 0, qM := 0, qO := 0, qC := 0, tag := .none }

/-- Modelled from the spec: `newInternalVariable()` allocates a fresh
wire of internal visibility from the monotonic counter (coefficient 1). -/
def newInternalVariable (st : BuilderState F) : Term F × BuilderState F :=
  (⟨st.nbVars, 1⟩, { st with nbVars := st.nbVars + 1 })

/-- Modelled from the spec: `addGate` appends one gate to the constraint list. -/
def addPlonkConstraint (st : BuilderState F) (g : Gate F) : BuilderState F :=
  { st with gates := st.gates ++ [g] }

/-- `constantValue`: runtime classification of an operand as a constant. -/
def constantValue : Var F → Option F
  | .const c => some c
  | .term _ => none

/-- Modelled from the spec: `MarkBoolean` records a term as
boolean-constrained (constants are left alone). -/
def MarkBoolean (st : BuilderState F) : Var F → BuilderState F
  | .const _ => st
  | .term t => { st with booleans := st.booleans ++ [t] }

/-- `IsBoolean`: a constant is boolean iff its value is 0 or 1; a term is
boolean iff previously marked. -/
def IsBoolean (st : BuilderState F) : Var F → Prop
  | .const c => c = 0 ∨ c = 1
  | .term t => t ∈ st.booleans

instance (st : BuilderState F) (v : Var F) : Decidable (IsBoolean st v) :=
  match v with
  | .const _ => inferInstanceAs (Decidable (_ ∨ _))
  | .term _ => inferInstanceAs (Decidable (_ ∈ _))

/-- Modelled from the spec: boolean assertion. A non-boolean constant is a
programmer error (`none` = panic); an already-marked term is elided; an
unmarked term is marked and constrained by the gate
`c·v − c²·v² = 0` (i.e. its value `w = c·v` satisfies `w(1−w) = 0`). -/
def AssertIsBoolean (st : BuilderState F) : Var F → Option (BuilderState F)
  | .const c => if c = 0 ∨ c = 1 then some st else none
  | .term t =>
      if t ∈ st.booleans then some st
      else
        some (addPlonkConstraint { st with booleans := st.booleans ++ [t] }
          { gate0 with xa := t.vid, xb := t.vid, qL := t.coeff,
                       qM := -(t.coeff * t.coeff) })

/-- Modelled from the spec: `classify` for sums — partition operands into
variable terms (input order preserved) and one folded constant. -/
def filterConstantSum : List (Var F) → List (Term F) × F
  | [] => ([], 0)
  | .const c :: rest =>
      let r := filterConstantSum rest
      (r.1, c + r.2)
  | .term t :: rest =>
      let r := filterConstantSum rest
      (t :: r.1, r.2)

/-- Modelled from the spec: `classify` for products — folded constant
accumulates by field multiplication, short-circuiting to the constant `0`
(dropping the variable terms) the moment a zero factor is found. -/
def filterConstantProdAux (acc : F) : List (Var F) → List (Term F) × F
  | [] => ([], acc)
  | .const c :: rest =>
      let b := acc * c
      if b = 0 then ([], 0) else filterConstantProdAux b rest
  | .term t :: rest =>
      let r := filterConstantProdAux acc rest
      (t :: r.1, r.2)

/-- Modelled from the spec: see `filterConstantProdAux`. -/
def filterConstantProd (l : List (Var F)) : List (Term F) × F :=
  filterConstantProdAux 1 l

/-- Accumulate one term into a reduced list: when a term with the same
wire id is present, coefficients are summed in place (field addition);
otherwise the term is appended, preserving first-occurrence order. -/
def addTermIntoList (t : Term F) : List (Term F) → List (Term F)
  | [] => [t]
  | s :: rest =>
      if s.vid = t.vid then ⟨s.vid, s.coeff + t.coeff⟩ :: rest
      else s :: addTermIntoList t rest

/-- Modelled from the spec: `reduce` merges terms sharing a wire id by
summing coefficients, producing unique wire ids in stable first-occurrence
order. -/
def reduce (l : List (Term F)) : List (Term F) :=
  l.foldl (fun acc t => addTermIntoList t acc) []

/-- Modelled from the spec: `splitSum` chains binary-addition gates
`qL·acc + qR·next − newAcc = 0`, with a trailing extra gate
`qL·acc − newAcc + qC = 0` carrying a nonzero folded constant. -/
def splitSum (st : BuilderState F) (acc : Term F) :
    List (Term F) → Option F → Var F × BuilderState F
  | [], Option.none => (.term acc, st)
  | [], some k =>
      let o := newInternalVariable st
      (.term o.1, addPlonkConstraint o.2
        { gate0 with xa := acc.vid, xc := o.1.vid, qL := acc.coeff, qO := -1, qC := k })
  | t :: rest, k =>
      let o := newInternalVariable st
      let st2 := addPlonkConstraint o.2
        { gate0 with xa := acc.vid, xb := t.vid, xc := o.1.vid,
                     qL := acc.coeff, qR := t.coeff, qO := -1 }
      splitSum st2 o.1 rest k

/-- Modelled from the spec: `splitProd` chains binary-multiplication gates
`qM·acc·next − newAcc = 0` with `qM` the product of the coefficients. -/
def splitProd (st : BuilderState F) (acc : Term F) :
    List (Term F) → Var F × BuilderState F
  | [] => (.term acc, st)
  | t :: rest =>
      let o := newInternalVariable st
      let st2 := addPlonkConstraint o.2
        { gate0 with xa := acc.vid, xb := t.vid, xc := o.1.vid,
                     qM := acc.coeff * t.coeff, qO := -1 }
      splitProd st2 o.1 rest

/-- `builder.Add`: fold constants, reduce duplicate wires, split into a
chain of binary gates. -/
def Add (st : BuilderState F) (i1 i2 : Var F) (rest : List (Var F)) :
    Var F × BuilderState F :=
  let fc := filterConstantSum (i1 :: i2 :: rest)
  match fc.1 with
  | [] => (.const fc.2, st)
  | v0 :: vs =>
      match reduce (v0 :: vs) with
      | [] => (.const fc.2, st)
      | r0 :: rs =>
          if fc.2 = 0 then splitSum st r0 rs Option.none
          else splitSum st r0 rs (some fc.2)

/-- `builder.Neg`: negate a constant or a term's coefficient; no gate. -/
def Neg : Var F → Var F
  | .const c => .const (-c)
  | .term t => .term ⟨t.vid, -t.coeff⟩

/-- `builder.Sub`: negate and add. -/
def Sub (st : BuilderState F) (i1 i2 : Var F) (rest : List (Var F)) :
    Var F × BuilderState F :=
  Add st i1 (Neg i2) (rest.map Neg)

/-- `mulConstant`: returns `t*m` by scaling the coefficient. -/
def mulConstant (t : Term F) (m : F) : Term F := ⟨t.vid, t.coeff * m⟩

/-- `builder.Mul`: fold constants (zero short-circuit), return constant 0
if the folded constant or any term coefficient is zero, else scale the
head term and split into a chain of multiplication gates. -/
def Mul (st : BuilderState F) (i1 i2 : Var F) (rest : List (Var F)) :
    Var F × BuilderState F :=
  let fc := filterConstantProd (i1 :: i2 :: rest)
  match fc.1 with
  | [] => (.const fc.2, st)
  | v0 :: vs =>
      if fc.2 = 0 then (.const 0, st)
      else if (v0 :: vs).any (fun t => t.coeff == 0) then (.const 0, st)
      else splitProd st (mulConstant v0 fc.2) vs

/-- `builder.Inverse`: a constant zero is a programmer error (`none` =
panic); a nonzero constant inverts in-compiler; a term gets a fresh result
wire and the gate `res·x·coeff − 1 = 0`. -/
def Inverse (st : BuilderState F) : Var F → Option (Var F) × BuilderState F
  | .const c =>
      if c = 0 then (Option.none, st) else (some (.const c⁻¹), st)
  | .term t =>
      let res := newInternalVariable st
      (some (.term res.1), addPlonkConstraint res.2
        { gate0 with xa := res.1.vid, xb := t.vid, qM := t.coeff, qC := -1 })

/-- `builder.DivUnchecked`: constant/constant and variable/constant paths
resolve by constant inversion (constant zero divisor = panic);
constant/variable goes through `Inverse`; variable/variable emits the
single gate `res·i2 − i1 = 0`. -/
def DivUnchecked (st : BuilderState F) (i1 i2 : Var F) :
    Option (Var F) × BuilderState F :=
  match i1, i2 with
  | .const c1, .const c2 =>
      if c2 = 0 then (Option.none, st) else (some (.const (c2⁻¹ * c1)), st)
  | .term t1, .const c2 =>
      if c2 = 0 then (Option.none, st)
      else (some (.term (mulConstant t1 c2⁻¹)), st)
  | .const c1, .term t2 =>
      let r := Inverse st (.term t2)
      match r.1 with
      | some (.term tr) => (some (.term (mulConstant tr c1)), r.2)
      | _ => (Option.none, r.2)
  | .term t1, .term t2 =>
      let res := newInternalVariable st
      (some (.term res.1), addPlonkConstraint res.2
        { gate0 with xa := res.1.vid, xb := t2.vid, xc := t1.vid,
                     qM := t2.coeff, qO := -t1.coeff })

/-- `builder.Div`: ensure `i2 ≠ 0` via one extra `Inverse` constraint,
then divide without check. -/
def Div (st : BuilderState F) (i1 i2 : Var F) : Option (Var F) × BuilderState F :=
  let inv := Inverse st i2
  match inv.1 with
  | Option.none => (Option.none, inv.2)
  | some _ => DivUnchecked inv.2 i1 i2

/-- Modelled from the spec: `requestHint` allocates the promised output
wires and records the binding; evaluation is deferred to the witness
solver. -/
def NewHint (st : BuilderState F) (fid : HintId) (nbOutputs : Nat)
    (inputs : List (Var F)) : List (Term F) × BuilderState F :=
  let outs : List (Term F) := (List.range nbOutputs).map (fun i => ⟨st.nbVars + i, 1⟩)
  (outs,
   { st with nbVars := st.nbVars + nbOutputs,
             hints := st.hints ++ [⟨fid, inputs, outs.map Term.vid⟩] })

/-- `builder.IsZero`: a constant resolves directly; a variable requests
the `InvZeroHint` and emits the two gates `a·x + m − 1 = 0` and
`a·m = 0`, marking `m` boolean. -/
def IsZero (st : BuilderState F) : Var F → Var F × BuilderState F
  | .const a => if a = 0 then (.const 1, st) else (.const 0, st)
  | .term a =>
      let m := newInternalVariable st
      let x := NewHint m.2 .invZero 1 [.term a]
      let X := x.1.headD ⟨0, 0⟩
      let st1 := addPlonkConstraint x.2
        { gate0 with xa := a.vid, xb := X.vid, xc := m.1.vid,
                     qM := a.coeff, qO := 1, qC := -1 }
      let st2 := addPlonkConstraint st1
        { gate0 with xa := a.vid, xb := m.1.vid, qM := a.coeff }
      (.term m.1, MarkBoolean st2 (.term m.1))

/-- `builder.Xor`: assert both operands boolean; two constants evaluate
the truth table in-compiler; one constant yields the affine gate
`(1−2b)·a + b − res = 0`; two variables yield the gate encoding
`res = a + b − 2ab`. A `none` result is a panic from a boolean assertion. -/
def Xor (st : BuilderState F) (a b : Var F) : Option (Var F) × BuilderState F :=
  match AssertIsBoolean st a with
  | Option.none => (Option.none, st)
  | some st1 =>
    match AssertIsBoolean st1 b with
    | Option.none => (Option.none, st1)
    | some st2 =>
      match a, b with
      | .const ca, .const cb =>
          (some (.const (if (ca = 1) = (cb = 1) then 0 else 1)), st2)
      | .const ca, .term tb =>
          let res := newInternalVariable st2
          let st3 := MarkBoolean res.2 (.term res.1)
          (some (.term res.1), addPlonkConstraint st3
            { gate0 with xa := tb.vid, xc := res.1.vid,
                         qL := (1 - ca - ca) * tb.coeff, qO := -1, qC := ca })
      | .term ta, .const cb =>
          let res := newInternalVariable st2
          let st3 := MarkBoolean res.2 (.term res.1)
          (some (.term res.1), addPlonkConstraint st3
            { gate0 with xa := ta.vid, xc := res.1.vid,
                         qL := (1 - cb - cb) * ta.coeff, qO := -1, qC := cb })
      | .term ta, .term tb =>
          let res := newInternalVariable st2
          let st3 := MarkBoolean res.2 (.term res.1)
          (some (.term res.1), addPlonkConstraint st3
            { gate0 with xa := ta.vid, xb := tb.vid, xc := res.1.vid,
                         qL := -ta.coeff, qR := -tb.coeff,
                         qM := (1 + 1) * ta.coeff * tb.coeff, qO := 1 })

/-- `builder.Or`: assert both boolean; two constants evaluate the truth
table; one constant resolves statically to `1` or to the variable operand
(no gate); two variables yield the gate encoding `res = a + b − ab`. -/
def Or (st : BuilderState F) (a b : Var F) : Option (Var F) × BuilderState F :=
  match AssertIsBoolean st a with
  | Option.none => (Option.none, st)
  | some st1 =>
    match AssertIsBoolean st1 b with
    | Option.none => (Option.none, st1)
    | some st2 =>
      match a, b with
      | .const ca, .const cb =>
          (some (.const (if ca = 1 ∨ cb = 1 then 1 else 0)), st2)
      | .const ca, .term tb =>
          if ca = 1 then (some (.const 1), st2) else (some (.term tb), st2)
      | .term ta, .const cb =>
          if cb = 1 then (some (.const 1), st2) else (some (.term ta), st2)
      | .term ta, .term tb =>
          let res := newInternalVariable st2
          let st3 := MarkBoolean res.2 (.term res.1)
          (some (.term res.1), addPlonkConstraint st3
            { gate0 with xa := ta.vid, xb := tb.vid, xc := res.1.vid,
                         qL := -ta.coeff, qR := -tb.coeff,
                         qM := ta.coeff * tb.coeff, qO := 1 })

/-- `builder.And`: assert both boolean, delegate to multiplication, mark
the result boolean. -/
def And (st : BuilderState F) (a b : Var F) : Option (Var F) × BuilderState F :=
  match AssertIsBoolean st a with
  | Option.none => (Option.none, st)
  | some st1 =>
    match AssertIsBoolean st1 b with
    | Option.none => (Option.none, st1)
    | some st2 =>
      let r := Mul st2 a b []
      (some r.1, MarkBoolean r.2 r.1)

/-- `builder.Select`: a constant condition must be boolean (`none` =
panic) and resolves statically; a variable condition is asserted boolean
and the result is `u = x − y; l = u·cond; result = l + y`. -/
def Select (st : BuilderState F) (b i1 i2 : Var F) :
    Option (Var F) × BuilderState F :=
  match b with
  | .const c =>
      if c = 0 ∨ c = 1 then
        (if c = 0 then (some i2, st) else (some i1, st))
      else (Option.none, st)
  | .term _ =>
      match AssertIsBoolean st b with
      | Option.none => (Option.none, st)
      | some st1 =>
          let u := Sub st1 i1 i2 []
          let l := Mul u.2 u.1 b []
          let r := Add l.2 l.1 i2 []
          (some r.1, r.2)

/-- `builder.mulAccFastTrack`: when all three operands are terms and `a`
shares a wire with `c` (or, after swapping `b` and `c`, with `b`), emit a
single gate `qL·a + qM·a·b' − res = 0` with `qL` the coefficient of `a`
and `qM` the product of the coefficients of `b` and `c`. -/
def mulAccFastTrack (st : BuilderState F) (a b c : Var F) :
    Option (Var F × BuilderState F) :=
  match a, b, c with
  | .term aV, .term bV0, .term cV0 =>
      let bV := if aV.vid = bV0.vid then cV0 else bV0
      let cV := if aV.vid = bV0.vid then bV0 else cV0
      if aV.vid = cV.vid then
        let res := newInternalVariable st
        some (.term res.1, addPlonkConstraint res.2
          { gate0 with xa := aV.vid, xb := bV.vid, xc := res.1.vid,
                       qL := aV.coeff, qO := -1, qM := bV.coeff * cV.coeff })
      else Option.none
  | _, _, _ => Option.none

/-- `builder.MulAcc`: returns `a + b·c`, taking the fast path when it
applies and the general `Add(a, Mul(b, c))` construction otherwise. -/
def MulAcc (st : BuilderState F) (a b c : Var F) : Var F × BuilderState F :=
  match mulAccFastTrack st a b c with
  | some r => r
  | Option.none =>
      let m := Mul st b c []
      Add m.2 a m.1 []

/-- Modelled from the spec: the external bit-decomposition sub-protocol
(`bits.ToBinary`): allocates `n` fresh boolean-constrained bit wires
(little-endian) and records the decomposition binding discharged by the
witness solver. -/
def ToBinary (st : BuilderState F) (v : Var F) (n : Nat) :
    List (Term F) × BuilderState F :=
  let bits : List (Term F) := (List.range n).map (fun i => ⟨st.nbVars + i, 1⟩)
  (bits,
   { st with nbVars := st.nbVars + n,
             booleans := st.booleans ++ bits,
             decomps := st.decomps ++ [⟨v, bits.map Term.vid⟩] })

/-- One iteration of the `Cmp` scan (the body of the source's loop at bit
index `i`): freeze the running result at the first differing bit using
`IsZero`/`And`/`Select`. -/
def cmpStep (b1 b2 : List (Term F)) (acc : Option (Var F) × BuilderState F)
    (i : Nat) : Option (Var F) × BuilderState F :=
  match acc.1 with
  | Option.none => acc
  | some res =>
      let st := acc.2
      let iszeroi1 := IsZero st (.term (b1.getD i ⟨0, 0⟩))
      let iszeroi2 := IsZero iszeroi1.2 (.term (b2.getD i ⟨0, 0⟩))
      match And iszeroi2.2 (.term (b1.getD i ⟨0, 0⟩)) iszeroi2.1 with
      | (Option.none, st3) => (Option.none, st3)
      | (some i1i2, st3) =>
        match And st3 (.term (b2.getD i ⟨0, 0⟩)) iszeroi1.1 with
        | (Option.none, st4) => (Option.none, st4)
        | (some i2i1, st4) =>
          match Select st4 i2i1 (.const (-1)) (.const 0) with
          | (Option.none, st5) => (Option.none, st5)
          | (some n', st5) =>
            match Select st5 i1i2 (.const 1) n' with
            | (Option.none, st6) => (Option.none, st6)
            | (some m, st6) =>
              let iz := IsZero st6 res
              Select iz.2 iz.1 m res

/-- `builder.Cmp`: decompose both operands into `nbBits` bits and scan
from most-significant to least-significant bit, keeping a running result
frozen at the first differing bit. -/
def Cmp (st : BuilderState F) (nbBits : Nat) (i1 i2 : Var F) :
    Option (Var F) × BuilderState F :=
  let b1 := ToBinary st i1 nbBits
  let b2 := ToBinary b1.2 i2 nbBits
  ((List.range nbBits).reverse).foldl (cmpStep b1.1 b2.1)
    (some (.const 0), b2.2)

/-- `filterConstants`: keep only the non-constant operands. -/
def filterConstants : List (Var F) → List (Var F)
  | [] => []
  | .const _ :: rest => filterConstants rest
  | .term t :: rest => .term t :: filterConstants rest

/-- The per-value loop of `builder.Commit`: negate each committed value,
record the gate index, and emit a `committed`-tagged gate `qL·v = 0`
(with `qL` the negated coefficient). -/
def commitLoop (st : BuilderState F) : List (Var F) → List Nat × BuilderState F
  | [] => ([], st)
  | v :: rest =>
      match Neg v with
      | .term tneg =>
          let idx := st.gates.length
          let st1 := addPlonkConstraint st
            { gate0 with xa := tneg.vid, qL := tneg.coeff, tag := .committed }
          let r := commitLoop st1 rest
          (idx :: r.1, r.2)
      | .const _ => commitLoop st rest

/-- `builder.Commit`: fails on a small field; otherwise filters constants,
emits one `committed` gate per value, requests the commitment hint with
the commitment depth as first input, emits the final `commitment`-tagged
gate and records the bookkeeping. -/
def Commit (st : BuilderState F) (vs : List (Var F)) :
    Except String (Var F) × BuilderState F :=
  if st.smallField then
    (.error "commitment not supported for small field", st)
  else
    let commitmentsLen := st.commitments.length
    let v := filterConstants vs
    let cl := commitLoop st v
    let inputs := Var.const (commitmentsLen : F) :: v
    let nh := NewHint cl.2 .commitPlaceholder 1 inputs
    match nh.1 with
    | [o] =>
        match Neg (.term o) with
        | .term commitmentVar =>
            let commitmentConstraintIndex := nh.2.gates.length
            let st3 := addPlonkConstraint nh.2
              { gate0 with xa := commitmentVar.vid, qL := commitmentVar.coeff,
                           tag := .commitment }
            (.ok (.term o),
             { st3 with commitments := st3.commitments ++
                 [⟨commitmentConstraintIndex, cl.1⟩] })
        | .const _ => (.error "impossible", nh.2)
    | _ => (.error "hint request failed", nh.2)

end SCS

namespace SCS

/-! ## Denotational semantics: assignments, gate equations, hint and
decomposition contracts. -/

variable {F : Type} [CommRing F] [DecidableEq F]

/-- Value of an operand under a wire assignment. -/
def varVal (σ : Nat → F) : Var F → F
  | .const c => c
  | .term t => t.coeff * σ t.vid

/-- Left-hand side of the canonical gate equation
`qL·a + qR·b + qM·a·b + qO·o + qC`. -/
def gateEval (σ : Nat → F) (g : Gate F) : F :=
  g.qL * σ g.xa + g.qR * σ g.xb + g.qM * (σ g.xa * σ g.xb) + g.qO * σ g.xc + g.qC

/-- An assignment satisfies a list of gates when every gate equation
vanishes. -/
def SatGates (σ : Nat → F) (l : List (Gate F)) : Prop :=
  ∀ g ∈ l, gateEval σ g = 0

instance (σ : Nat → F) (l : List (Gate F)) : Decidable (SatGates σ l) :=
  inferInstanceAs (Decidable (∀ g ∈ l, _ = _))

/-- The hint contract of `InvZeroHint`: the output is `1/x` for nonzero
`x` (stated multiplicatively) and `0` for `x = 0`. Other hint functions
are opaque (no constraint at this layer). -/
def HintSat (σ : Nat → F) (h : HintBinding F) : Prop :=
  if h.fid = .invZero ∧ h.inputs.length = 1 ∧ h.outputs.length = 1 then
    (if varVal σ (h.inputs.headD (.const 0)) = 0 then σ (h.outputs.headD 0) = 0
     else varVal σ (h.inputs.headD (.const 0)) * σ (h.outputs.headD 0) = 1)
  else True

instance (σ : Nat → F) (h : HintBinding F) : Decidable (HintSat σ h) := by
  unfold HintSat
  split
  · split <;> infer_instance
  · infer_instance

/-- The bit-decomposition contract: each recorded bit wire carries the
corresponding little-endian binary digit of the canonical representative
of the decomposed value. -/
def DecompSat {p : ℕ} (σ : Nat → ZMod p) (d : Decomp (ZMod p)) : Prop :=
  ∀ i < d.bits.length,
    σ (d.bits.getD i 0) = (((varVal σ d.input).val / 2 ^ i) % 2 : ℕ)

instance {p : ℕ} (σ : Nat → ZMod p) (d : Decomp (ZMod p)) :
    Decidable (DecompSat σ d) :=
  inferInstanceAs (Decidable (∀ i, i < _ → _ = _))

/-- A satisfying assignment of a builder state: all gate equations hold,
all hint bindings respect their contracts, all decompositions are correct. -/
def Sat {p : ℕ} (σ : Nat → ZMod p) (st : BuilderState (ZMod p)) : Prop :=
  SatGates σ st.gates ∧ (∀ h ∈ st.hints, HintSat σ h) ∧
    (∀ d ∈ st.decomps, DecompSat σ d)

instance {p : ℕ} (σ : Nat → ZMod p) (st : BuilderState (ZMod p)) :
    Decidable (Sat σ st) :=
  inferInstanceAs (Decidable (_ ∧ _ ∧ _))

/-- `st'` extends `st`: gates, hints and decompositions have only been
appended (the constraint system grows monotonically). -/
def Extends (st st' : BuilderState F) : Prop :=
  (∃ l, st'.gates = st.gates ++ l) ∧ (∃ l, st'.hints = st.hints ++ l) ∧
    (∃ l, st'.decomps = st.decomps ++ l)

theorem Extends.refl (st : BuilderState F) : Extends st st :=
  ⟨⟨[], by simp⟩, ⟨[], by simp⟩, ⟨[], by simp⟩⟩

theorem Extends.trans {s1 s2 s3 : BuilderState F}
    (h12 : Extends s1 s2) (h23 : Extends s2 s3) : Extends s1 s3 := by
  obtain ⟨⟨g1, hg1⟩, ⟨h1, hh1⟩, ⟨d1, hd1⟩⟩ := h12
  obtain ⟨⟨g2, hg2⟩, ⟨h2, hh2⟩, ⟨d2, hd2⟩⟩ := h23
  exact ⟨⟨g1 ++ g2, by simp [hg2, hg1]⟩, ⟨h1 ++ h2, by simp [hh2, hh1]⟩,
    ⟨d1 ++ d2, by simp [hd2, hd1]⟩⟩

theorem SatGates.mono_append {σ : Nat → F} {l l' : List (Gate F)}
    (hsub : ∃ m, l' = l ++ m) (h : SatGates σ l') : SatGates σ l := by
  obtain ⟨m, rfl⟩ := hsub
  intro g hg
  exact h g (List.mem_append_left _ hg)

theorem SatGates.extend {σ : Nat → F} {st st' : BuilderState F}
    (hext : Extends st st') (h : SatGates σ st'.gates) : SatGates σ st.gates :=
  SatGates.mono_append hext.1 h

theorem Sat.mono_extends {p : ℕ} {σ : Nat → ZMod p}
    {st st' : BuilderState (ZMod p)} (hext : Extends st st') (h : Sat σ st') :
    Sat σ st := by
  obtain ⟨⟨g, hg⟩, ⟨hh, hhh⟩, ⟨d, hd⟩⟩ := hext
  refine ⟨SatGates.mono_append ⟨g, hg⟩ h.1, ?_, ?_⟩
  · intro b hb
    exact h.2.1 b (by rw [hhh]; exact List.mem_append_left _ hb)
  · intro b hb
    exact h.2.2 b (by rw [hd]; exact List.mem_append_left _ hb)

/-- Sum of the values of a list of terms. -/
def sumT (σ : Nat → F) (l : List (Term F)) : F :=
  (l.map (fun t => t.coeff * σ t.vid)).sum

/-- Product of the values of a list of terms. -/
def prodT (σ : Nat → F) (l : List (Term F)) : F :=
  (l.map (fun t => t.coeff * σ t.vid)).prod

/-- Sum of the values of a list of operands. -/
def sumV (σ : Nat → F) (l : List (Var F)) : F :=
  (l.map (varVal σ)).sum

/-- Product of the values of a list of operands. -/
def prodV (σ : Nat → F) (l : List (Var F)) : F :=
  (l.map (varVal σ)).prod

@[simp] theorem varVal_const (σ : Nat → F) (c : F) : varVal σ (.const c) = c := rfl

@[simp] theorem varVal_term (σ : Nat → F) (t : Term F) :
    varVal σ (.term t) = t.coeff * σ t.vid := rfl

@[simp] theorem sumT_nil (σ : Nat → F) : sumT σ [] = 0 := rfl

@[simp] theorem sumT_cons (σ : Nat → F) (t : Term F) (l : List (Term F)) :
    sumT σ (t :: l) = t.coeff * σ t.vid + sumT σ l := by
  simp [sumT]

@[simp] theorem prodT_nil (σ : Nat → F) : prodT σ [] = 1 := rfl

@[simp] theorem prodT_cons (σ : Nat → F) (t : Term F) (l : List (Term F)) :
    prodT σ (t :: l) = (t.coeff * σ t.vid) * prodT σ l := by
  simp [prodT]

@[simp] theorem sumV_nil (σ : Nat → F) : sumV σ [] = 0 := rfl

@[simp] theorem sumV_cons (σ : Nat → F) (v : Var F) (l : List (Var F)) :
    sumV σ (v :: l) = varVal σ v + sumV σ l := by
  simp [sumV]

@[simp] theorem prodV_nil (σ : Nat → F) : prodV σ [] = 1 := rfl

@[simp] theorem prodV_cons (σ : Nat → F) (v : Var F) (l : List (Var F)) :
    prodV σ (v :: l) = varVal σ v * prodV σ l := by
  simp [prodV]

end SCS

namespace SCS

/-! ## Soundness of the term algebra and the gate splitter -/

variable {F : Type} [Field F] [DecidableEq F]

theorem filterConstantSum_val (σ : Nat → F) (l : List (Var F)) :
    sumT σ (filterConstantSum l).1 + (filterConstantSum l).2 = sumV σ l := by
  induction l with
  | nil => simp [filterConstantSum]
  | cons v rest ih =>
      cases v with
      | const c => simp only [filterConstantSum]; simp; rw [← ih]; ring
      | term t => simp only [filterConstantSum]; simp; rw [← ih]; ring

theorem filterConstantProdAux_val (σ : Nat → F) (l : List (Var F)) :
    ∀ acc : F,
      prodT σ (filterConstantProdAux acc l).1 * (filterConstantProdAux acc l).2 =
        acc * prodV σ l := by
  induction l with
  | nil => intro acc; simp [filterConstantProdAux]
  | cons v rest ih =>
      intro acc
      cases v with
      | const c =>
          simp only [filterConstantProdAux]
          by_cases h : acc * c = 0
          · rw [if_pos h]
            simp only [prodT_nil, prodV_cons, varVal_const, one_mul, mul_zero]
            rw [← mul_assoc, h, zero_mul]
          · rw [if_neg h]
            rw [ih (acc * c)]
            simp only [prodV_cons, varVal_const]
            ring
      | term t =>
          simp only [filterConstantProdAux, prodT_cons, prodV_cons, varVal_term]
          rw [mul_assoc, ih acc]
          ring

theorem filterConstantProd_val (σ : Nat → F) (l : List (Var F)) :
    prodT σ (filterConstantProd l).1 * (filterConstantProd l).2 = prodV σ l := by
  simpa using filterConstantProdAux_val σ l 1

theorem sumT_filter_split (σ : Nat → F) (v : Nat) (l : List (Term F)) :
    sumT σ l =
      ((l.filter (fun s => s.vid = v)).map Term.coeff).sum * σ v +
        sumT σ (l.filter (fun s => ¬ s.vid = v)) := by
  induction l with
  | nil => simp
  | cons t rest ih =>
      by_cases h : t.vid = v
      · simp [List.filter_cons, h, ih]
        rw [← h]
        ring
      · simp [List.filter_cons, h, ih]
        ring

theorem sumT_addTermIntoList (σ : Nat → F) (t : Term F) (acc : List (Term F)) :
    sumT σ (addTermIntoList t acc) = sumT σ acc + t.coeff * σ t.vid := by
  induction acc with
  | nil => simp [addTermIntoList]
  | cons s rest ih =>
      by_cases h : s.vid = t.vid
      · simp only [addTermIntoList, if_pos h, sumT_cons]
        rw [h]
        ring
      · simp only [addTermIntoList, if_neg h, sumT_cons, ih]
        ring

theorem reduce_foldl_val (σ : Nat → F) (l : List (Term F)) :
    ∀ acc : List (Term F),
      sumT σ (l.foldl (fun acc t => addTermIntoList t acc) acc) =
        sumT σ acc + sumT σ l := by
  induction l with
  | nil => intro acc; simp
  | cons t rest ih =>
      intro acc
      simp only [List.foldl_cons, ih (addTermIntoList t acc),
        sumT_addTermIntoList, sumT_cons]
      ring

theorem reduce_val (σ : Nat → F) (l : List (Term F)) :
    sumT σ (reduce l) = sumT σ l := by
  unfold reduce
  rw [reduce_foldl_val]
  simp

theorem addPlonkConstraint_ext (st : BuilderState F) (g : Gate F) :
    Extends st (addPlonkConstraint st g) :=
  ⟨⟨[g], rfl⟩, ⟨[], by simp [addPlonkConstraint]⟩, ⟨[], by simp [addPlonkConstraint]⟩⟩

theorem splitSum_sound (σ : Nat → F) :
    ∀ (r : List (Term F)) (acc : Term F) (k : Option F) (st : BuilderState F),
      Extends st (splitSum st acc r k).2 ∧
      (SatGates σ (splitSum st acc r k).2.gates →
        varVal σ (splitSum st acc r k).1 =
          acc.coeff * σ acc.vid + sumT σ r + k.getD 0) := by
  intro r
  induction r with
  | nil =>
      intro acc k st
      cases k with
      | none => exact ⟨Extends.refl st, by simp [splitSum]⟩
      | some kv =>
          have hunf : splitSum st acc [] (some kv) =
              (.term ⟨st.nbVars, 1⟩,
               addPlonkConstraint { st with nbVars := st.nbVars + 1 }
                 ⟨acc.vid, 0, st.nbVars, acc.coeff, 0, 0, -1, kv, .none⟩) := rfl
          rw [hunf]
          refine ⟨⟨⟨[_], rfl⟩, ⟨[], by simp [addPlonkConstraint]⟩,
            ⟨[], by simp [addPlonkConstraint]⟩⟩, ?_⟩
          intro hsat
          have hg := hsat ⟨acc.vid, 0, st.nbVars, acc.coeff, 0, 0, -1, kv, .none⟩
            (by simp [addPlonkConstraint])
          simp only [gateEval] at hg
          simp only [varVal_term, Option.getD_some, sumT_nil]
          linear_combination -hg
  | cons t rest ih =>
      intro acc k st
      have hunf : splitSum st acc (t :: rest) k =
          splitSum (addPlonkConstraint { st with nbVars := st.nbVars + 1 }
              ⟨acc.vid, t.vid, st.nbVars, acc.coeff, t.coeff, 0, -1, 0, .none⟩)
            ⟨st.nbVars, 1⟩ rest k := rfl
      rw [hunf]
      obtain ⟨ihext, ihval⟩ :=
        ih ⟨st.nbVars, 1⟩ k
          (addPlonkConstraint { st with nbVars := st.nbVars + 1 }
            ⟨acc.vid, t.vid, st.nbVars, acc.coeff, t.coeff, 0, -1, 0, .none⟩)
      refine ⟨Extends.trans (addPlonkConstraint_ext _ _) ihext, ?_⟩
      intro hsat
      have hg : gateEval σ ⟨acc.vid, t.vid, st.nbVars, acc.coeff, t.coeff, 0, -1, 0, .none⟩ = 0 := by
        refine (SatGates.extend ihext hsat) _ ?_
        simp [addPlonkConstraint]
      have hval := ihval hsat
      rw [hval]
      simp only [gateEval] at hg
      simp only [sumT_cons]
      linear_combination -hg

theorem splitProd_sound (σ : Nat → F) :
    ∀ (r : List (Term F)) (acc : Term F) (st : BuilderState F),
      Extends st (splitProd st acc r).2 ∧
      (SatGates σ (splitProd st acc r).2.gates →
        varVal σ (splitProd st acc r).1 = (acc.coeff * σ acc.vid) * prodT σ r) := by
  intro r
  induction r with
  | nil =>
      intro acc st
      exact ⟨Extends.refl st, by simp [splitProd]⟩
  | cons t rest ih =>
      intro acc st
      have hunf : splitProd st acc (t :: rest) =
          splitProd (addPlonkConstraint { st with nbVars := st.nbVars + 1 }
              ⟨acc.vid, t.vid, st.nbVars, 0, 0, acc.coeff * t.coeff, -1, 0, .none⟩)
            ⟨st.nbVars, 1⟩ rest := rfl
      rw [hunf]
      obtain ⟨ihext, ihval⟩ :=
        ih ⟨st.nbVars, 1⟩
          (addPlonkConstraint { st with nbVars := st.nbVars + 1 }
            ⟨acc.vid, t.vid, st.nbVars, 0, 0, acc.coeff * t.coeff, -1, 0, .none⟩)
      refine ⟨Extends.trans (addPlonkConstraint_ext _ _) ihext, ?_⟩
      intro hsat
      have hg : gateEval σ
          ⟨acc.vid, t.vid, st.nbVars, 0, 0, acc.coeff * t.coeff, -1, 0, .none⟩ = 0 := by
        refine (SatGates.extend ihext hsat) _ ?_
        simp [addPlonkConstraint]
      have hval := ihval hsat
      rw [hval]
      simp only [gateEval] at hg
      simp only [prodT_cons]
      linear_combination -prodT σ rest * hg

/-! ## Soundness of the arithmetic operations -/

@[simp] theorem Neg_val (σ : Nat → F) (v : Var F) :
    varVal σ (Neg v) = -varVal σ v := by
  cases v <;> simp [Neg]

theorem sumV_map_neg (σ : Nat → F) (l : List (Var F)) :
    sumV σ (l.map Neg) = -sumV σ l := by
  induction l with
  | nil => simp
  | cons v rest ih => simp [ih]; ring

theorem Add_sound (σ : Nat → F) (st : BuilderState F) (i1 i2 : Var F)
    (rest : List (Var F)) :
    Extends st (Add st i1 i2 rest).2 ∧
    (SatGates σ (Add st i1 i2 rest).2.gates →
      varVal σ (Add st i1 i2 rest).1 = varVal σ i1 + varVal σ i2 + sumV σ rest) := by
  have hfcv := filterConstantSum_val σ (i1 :: i2 :: rest)
  rcases hfc : filterConstantSum (i1 :: i2 :: rest) with ⟨vars, k⟩
  rw [hfc] at hfcv
  simp only [sumV_cons] at hfcv
  cases vars with
  | nil =>
      have : Add st i1 i2 rest = (.const k, st) := by
        simp only [Add, hfc]
      rw [this]
      refine ⟨Extends.refl st, fun _ => ?_⟩
      simp only [varVal_const]
      simp only [sumT_nil, zero_add] at hfcv
      linear_combination hfcv
  | cons v0 vs =>
      have hred := reduce_val σ (v0 :: vs)
      rcases hr : reduce (v0 :: vs) with _ | ⟨r0, rs⟩
      · have : Add st i1 i2 rest = (.const k, st) := by
          simp only [Add, hfc, hr]
        rw [this]
        rw [hr] at hred
        simp only [sumT_nil] at hred
        refine ⟨Extends.refl st, fun _ => ?_⟩
        simp only [varVal_const]
        linear_combination hfcv + hred
      · rw [hr] at hred
        have hcons : r0.coeff * σ r0.vid + sumT σ rs = sumT σ (r0 :: rs) :=
          (sumT_cons σ r0 rs).symm
        by_cases hk : k = 0
        · have heq : Add st i1 i2 rest = splitSum st r0 rs Option.none := by
            simp only [Add, hfc, hr]
            rw [if_pos hk]
          rw [heq]
          obtain ⟨hext, hval⟩ := splitSum_sound σ rs r0 Option.none st
          refine ⟨hext, fun hsat => ?_⟩
          rw [hval hsat]
          rw [hk] at hfcv
          simp only [Option.getD_none]
          linear_combination hcons + hred + hfcv
        · have heq : Add st i1 i2 rest = splitSum st r0 rs (some k) := by
            simp only [Add, hfc, hr]
            rw [if_neg hk]
          rw [heq]
          obtain ⟨hext, hval⟩ := splitSum_sound σ rs r0 (some k) st
          refine ⟨hext, fun hsat => ?_⟩
          rw [hval hsat]
          simp only [Option.getD_some]
          linear_combination hcons + hred + hfcv

theorem Sub_sound (σ : Nat → F) (st : BuilderState F) (i1 i2 : Var F) :
    Extends st (Sub st i1 i2 []).2 ∧
    (SatGates σ (Sub st i1 i2 []).2.gates →
      varVal σ (Sub st i1 i2 []).1 = varVal σ i1 - varVal σ i2) := by
  obtain ⟨hext, hval⟩ := Add_sound σ st i1 (Neg i2) []
  refine ⟨hext, fun hsat => ?_⟩
  have h := hval hsat
  simp only [Sub, List.map_nil]
  rw [h]
  simp only [Neg_val, sumV_nil, add_zero]
  ring

theorem prodT_eq_zero {σ : Nat → F} {l : List (Term F)} {t : Term F}
    (hmem : t ∈ l) (hz : t.coeff = 0) : prodT σ l = 0 := by
  apply List.prod_eq_zero
  refine List.mem_map.mpr ⟨t, hmem, ?_⟩
  rw [hz, zero_mul]

theorem Mul_sound (σ : Nat → F) (st : BuilderState F) (i1 i2 : Var F)
    (rest : List (Var F)) :
    Extends st (Mul st i1 i2 rest).2 ∧
    (SatGates σ (Mul st i1 i2 rest).2.gates →
      varVal σ (Mul st i1 i2 rest).1 = varVal σ i1 * varVal σ i2 * prodV σ rest) := by
  have hfcv := filterConstantProd_val σ (i1 :: i2 :: rest)
  rcases hfc : filterConstantProd (i1 :: i2 :: rest) with ⟨vars, k⟩
  rw [hfc] at hfcv
  simp only [prodV_cons] at hfcv
  cases vars with
  | nil =>
      have : Mul st i1 i2 rest = (.const k, st) := by
        simp only [Mul, hfc]
      rw [this]
      refine ⟨Extends.refl st, fun _ => ?_⟩
      simp only [varVal_const]
      simpa [mul_assoc] using hfcv
  | cons v0 vs =>
      by_cases hk : k = 0
      · have : Mul st i1 i2 rest = (.const 0, st) := by
          simp only [Mul, hfc]
          rw [if_pos hk]
        rw [this]
        refine ⟨Extends.refl st, fun _ => ?_⟩
        rw [hk, mul_zero] at hfcv
        simp only [varVal_const]
        linear_combination hfcv
      · by_cases hany : (v0 :: vs).any (fun t => t.coeff == 0)
        · have : Mul st i1 i2 rest = (.const 0, st) := by
            simp only [Mul, hfc]
            rw [if_neg hk, if_pos hany]
          rw [this]
          refine ⟨Extends.refl st, fun _ => ?_⟩
          simp only [varVal_const]
          obtain ⟨t, hmem, ht⟩ := List.any_eq_true.mp hany
          have hz : prodT σ (v0 :: vs) = 0 := prodT_eq_zero hmem (beq_iff_eq.mp ht)
          rw [hz, zero_mul] at hfcv
          linear_combination hfcv
        · have heq : Mul st i1 i2 rest = splitProd st (mulConstant v0 k) vs := by
            simp only [Mul, hfc]
            rw [if_neg hk, if_neg hany]
          rw [heq]
          obtain ⟨hext, hval⟩ := splitProd_sound σ vs (mulConstant v0 k) st
          refine ⟨hext, fun hsat => ?_⟩
          rw [hval hsat]
          simp only [mulConstant, prodT_cons] at hfcv ⊢
          linear_combination hfcv

/-! ## Soundness of the boolean and selection library -/

theorem MarkBoolean_gates (st : BuilderState F) (v : Var F) :
    (MarkBoolean st v).gates = st.gates := by
  cases v <;> rfl

theorem MarkBoolean_ext (st : BuilderState F) (v : Var F) :
    Extends st (MarkBoolean st v) := by
  cases v <;>
    exact ⟨⟨[], by simp [MarkBoolean]⟩, ⟨[], by simp [MarkBoolean]⟩,
      ⟨[], by simp [MarkBoolean]⟩⟩

theorem AssertIsBoolean_term (st : BuilderState F) (t : Term F) :
    ∃ st', AssertIsBoolean st (.term t) = some st' ∧ Extends st st' := by
  by_cases h : t ∈ st.booleans
  · exact ⟨st, by simp [AssertIsBoolean, h], Extends.refl st⟩
  · have heq : AssertIsBoolean st (.term t) =
        some (addPlonkConstraint { st with booleans := st.booleans ++ [t] }
          ⟨t.vid, t.vid, 0, t.coeff, 0, -(t.coeff * t.coeff), 0, 0, .none⟩) := by
      simp [AssertIsBoolean, h]
      rfl
    refine ⟨_, heq, ?_⟩
    exact ⟨⟨[_], rfl⟩, ⟨[], by simp [addPlonkConstraint]⟩,
      ⟨[], by simp [addPlonkConstraint]⟩⟩

theorem Select_sound (σ : Nat → F) (st : BuilderState F) (b x y : Var F)
    (hb : (∃ t, b = .term t) ∨ b = .const 0 ∨ b = .const 1) :
    ∃ r st', Select st b x y = (some r, st') ∧ Extends st st' ∧
      (SatGates σ st'.gates →
        varVal σ r = (varVal σ x - varVal σ y) * varVal σ b + varVal σ y) := by
  rcases hb with ⟨t, rfl⟩ | rfl | rfl
  · obtain ⟨st1, ha, hext1⟩ := AssertIsBoolean_term st t
    refine ⟨(Add (Mul (Sub st1 x y []).2 (Sub st1 x y []).1 (.term t) []).2
        (Mul (Sub st1 x y []).2 (Sub st1 x y []).1 (.term t) []).1 y []).1,
      (Add (Mul (Sub st1 x y []).2 (Sub st1 x y []).1 (.term t) []).2
        (Mul (Sub st1 x y []).2 (Sub st1 x y []).1 (.term t) []).1 y []).2,
      ?_, ?_, ?_⟩
    · simp only [Select, ha]
    · obtain ⟨e1, _⟩ := Sub_sound σ st1 x y
      obtain ⟨e2, _⟩ := Mul_sound σ (Sub st1 x y []).2 (Sub st1 x y []).1 (.term t) []
      obtain ⟨e3, _⟩ := Add_sound σ (Mul (Sub st1 x y []).2 (Sub st1 x y []).1 (.term t) []).2
        (Mul (Sub st1 x y []).2 (Sub st1 x y []).1 (.term t) []).1 y []
      exact Extends.trans hext1 (Extends.trans e1 (Extends.trans e2 e3))
    · intro hsat
      obtain ⟨e1, v1⟩ := Sub_sound σ st1 x y
      obtain ⟨e2, v2⟩ := Mul_sound σ (Sub st1 x y []).2 (Sub st1 x y []).1 (.term t) []
      obtain ⟨e3, v3⟩ := Add_sound σ (Mul (Sub st1 x y []).2 (Sub st1 x y []).1 (.term t) []).2
        (Mul (Sub st1 x y []).2 (Sub st1 x y []).1 (.term t) []).1 y []
      have hsat2 := SatGates.extend e3 hsat
      have hsat1 := SatGates.extend e2 hsat2
      rw [v3 hsat, v2 hsat2, v1 hsat1]
      simp only [sumV_nil, prodV_nil, add_zero, mul_one]
  · refine ⟨y, st, ?_, Extends.refl st, fun _ => by simp⟩
    simp [Select]
  · refine ⟨x, st, ?_, Extends.refl st, fun _ => by simp⟩
    simp [Select, one_ne_zero]

theorem IsZero_sound (σ : Nat → F) (st : BuilderState F) (v : Var F) :
    Extends st (IsZero st v).2 ∧
    (SatGates σ (IsZero st v).2.gates →
      varVal σ (IsZero st v).1 = if varVal σ v = 0 then 1 else 0) := by
  cases v with
  | const a =>
      by_cases h : a = 0
      · rw [show IsZero st (.const a) = (.const 1, st) by simp [IsZero, h]]
        exact ⟨Extends.refl st, fun _ => by simp [h]⟩
      · rw [show IsZero st (.const a) = (.const 0, st) by simp [IsZero, h]]
        exact ⟨Extends.refl st, fun _ => by simp [h]⟩
  | term a =>
      have hunf : IsZero st (.term a) =
          (.term ⟨st.nbVars, 1⟩,
           { st with
               nbVars := st.nbVars + 2,
               gates := (st.gates ++
                 [⟨a.vid, st.nbVars + 1, st.nbVars, 0, 0, a.coeff, 1, -1, .none⟩]) ++
                 [⟨a.vid, st.nbVars, 0, 0, 0, a.coeff, 0, 0, .none⟩],
               booleans := st.booleans ++ [⟨st.nbVars, 1⟩],
               hints := st.hints ++ [⟨.invZero, [.term a], [st.nbVars + 1]⟩] }) := rfl
      rw [hunf]
      constructor
      · exact ⟨⟨[⟨a.vid, st.nbVars + 1, st.nbVars, 0, 0, a.coeff, 1, -1, .none⟩,
          ⟨a.vid, st.nbVars, 0, 0, 0, a.coeff, 0, 0, .none⟩], by simp⟩,
          ⟨[⟨.invZero, [.term a], [st.nbVars + 1]⟩], rfl⟩, ⟨[], by simp⟩⟩
      · intro hsat
        have hg1 : gateEval σ ⟨a.vid, st.nbVars + 1, st.nbVars, 0, 0, a.coeff, 1, -1, .none⟩ = 0 :=
          hsat _ (by simp)
        have hg2 : gateEval σ ⟨a.vid, st.nbVars, 0, 0, 0, a.coeff, 0, 0, .none⟩ = 0 :=
          hsat _ (by simp)
        simp only [gateEval] at hg1 hg2
        simp only [varVal_term]
        by_cases h : a.coeff * σ a.vid = 0
        · rw [if_pos h]
          linear_combination hg1 - σ (st.nbVars + 1) * h
        · rw [if_neg h]
          have hz : (a.coeff * σ a.vid) * σ st.nbVars = 0 := by linear_combination hg2
          rcases mul_eq_zero.mp hz with hz' | hz'
          · exact absurd hz' h
          · rw [hz', mul_zero]

theorem Mul_term_shape (st : BuilderState F) (a b : Term F) :
    (∃ t, (Mul st (.term a) (.term b) []).1 = .term t) ∨
      (Mul st (.term a) (.term b) []).1 = .const 0 := by
  have hfc : filterConstantProd [Var.term a, Var.term b] = ([a, b], (1 : F)) := rfl
  simp only [Mul, hfc]
  rw [if_neg one_ne_zero]
  by_cases hany : (([a, b] : List (Term F)).any fun s => s.coeff == 0) = true
  · rw [if_pos hany]
    right
    rfl
  · rw [if_neg hany]
    left
    exact ⟨⟨st.nbVars, 1⟩, rfl⟩

theorem And_sound (σ : Nat → F) (st : BuilderState F) (t1 t2 : Term F) :
    ∃ r st', And st (.term t1) (.term t2) = (some r, st') ∧ Extends st st' ∧
      ((∃ u, r = .term u) ∨ r = .const 0) ∧
      (SatGates σ st'.gates →
        varVal σ r = (t1.coeff * σ t1.vid) * (t2.coeff * σ t2.vid)) := by
  obtain ⟨st1, ha1, he1⟩ := AssertIsBoolean_term st t1
  obtain ⟨st2, ha2, he2⟩ := AssertIsBoolean_term st1 t2
  obtain ⟨he3, hv3⟩ := Mul_sound σ st2 (.term t1) (.term t2) []
  refine ⟨(Mul st2 (.term t1) (.term t2) []).1,
    MarkBoolean (Mul st2 (.term t1) (.term t2) []).2 (Mul st2 (.term t1) (.term t2) []).1,
    ?_, ?_, Mul_term_shape st2 t1 t2, ?_⟩
  · simp only [And, ha1, ha2]
  · exact Extends.trans he1 (Extends.trans he2
      (Extends.trans he3 (MarkBoolean_ext _ _)))
  · intro hsat
    rw [MarkBoolean_gates] at hsat
    rw [hv3 hsat]
    simp

end SCS

namespace SCS

variable {F : Type} [Field F] [DecidableEq F]

theorem reduce_pair (a b : Term F) (h : ¬ b.vid = a.vid) :
    reduce [a, b] = [a, b] := by
  have h2 : ¬ a.vid = b.vid := fun hh => h hh.symm
  simp [reduce, addTermIntoList, h2]

theorem Add_term_pair (st : BuilderState F) (a b : Term F) (h : ¬ b.vid = a.vid) :
    Add st (.term a) (.term b) [] =
      (.term ⟨st.nbVars, 1⟩,
       addPlonkConstraint { st with nbVars := st.nbVars + 1 }
         ⟨a.vid, b.vid, st.nbVars, a.coeff, b.coeff, 0, -1, 0, .none⟩) := by
  have hfc : filterConstantSum [Var.term a, Var.term b] = ([a, b], (0 : F)) := rfl
  simp only [Add, hfc, reduce_pair a b h, if_true]
  rfl

theorem Mul_term_pair (st : BuilderState F) (a b : Term F)
    (ha : a.coeff ≠ 0) (hb : b.coeff ≠ 0) :
    Mul st (.term a) (.term b) [] =
      (.term ⟨st.nbVars, 1⟩,
       addPlonkConstraint { st with nbVars := st.nbVars + 1 }
         ⟨a.vid, b.vid, st.nbVars, 0, 0, a.coeff * 1 * b.coeff, -1, 0, .none⟩) := by
  have hfc : filterConstantProd [Var.term a, Var.term b] = ([a, b], (1 : F)) := rfl
  have hany : (([a, b] : List (Term F)).any fun s => s.coeff == 0) = false := by
    simp only [List.any_cons, List.any_nil, Bool.or_false, Bool.or_eq_false_iff,
      beq_eq_false_iff_ne, ne_eq]
    exact ⟨ha, hb⟩
  have hany2 : ¬ (([a, b] : List (Term F)).any fun s => s.coeff == 0) = true := by
    rw [hany]
    exact Bool.false_ne_true
  simp only [Mul, hfc]
  rw [if_neg one_ne_zero, if_neg hany2]
  rfl

theorem Select_gates (st : BuilderState F) (t tx ty : Term F)
    (hmem : t ∈ st.booleans) (htc : t.coeff ≠ 0)
    (hne : ¬ ty.vid = tx.vid) (hne2 : ¬ ty.vid = st.nbVars + 1) :
    Select st (.term t) (.term tx) (.term ty) =
      (some (.term ⟨st.nbVars + 2, 1⟩),
       { st with
           nbVars := st.nbVars + 3,
           gates := st.gates ++
             [⟨tx.vid, ty.vid, st.nbVars, tx.coeff, -ty.coeff, 0, -1, 0, .none⟩,
              ⟨st.nbVars, t.vid, st.nbVars + 1, 0, 0, t.coeff, -1, 0, .none⟩,
              ⟨st.nbVars + 1, ty.vid, st.nbVars + 2, 1, ty.coeff, 0, -1, 0,
               .none⟩] }) := by
  have hAt : AssertIsBoolean st (.term t) = some st := by
    show (if t ∈ st.booleans then some st else _) = some st
    rw [if_pos hmem]
  have hsub : Sub st (.term tx) (.term ty) [] =
      (.term ⟨st.nbVars, 1⟩,
       addPlonkConstraint { st with nbVars := st.nbVars + 1 }
         ⟨tx.vid, ty.vid, st.nbVars, tx.coeff, -ty.coeff, 0, -1, 0, .none⟩) := by
    show Add st (.term tx) (.term ⟨ty.vid, -ty.coeff⟩) [] = _
    exact Add_term_pair st tx ⟨ty.vid, -ty.coeff⟩ hne
  have hmul : Mul (addPlonkConstraint { st with nbVars := st.nbVars + 1 }
        ⟨tx.vid, ty.vid, st.nbVars, tx.coeff, -ty.coeff, 0, -1, 0, .none⟩)
      (.term ⟨st.nbVars, 1⟩) (.term t) [] =
      (.term ⟨st.nbVars + 1, 1⟩,
       addPlonkConstraint { st with
           nbVars := st.nbVars + 2,
           gates := st.gates ++
             [⟨tx.vid, ty.vid, st.nbVars, tx.coeff, -ty.coeff, 0, -1, 0, .none⟩] }
         ⟨st.nbVars, t.vid, st.nbVars + 1, 0, 0, 1 * 1 * t.coeff, -1, 0,
          .none⟩) := by
    have := Mul_term_pair (addPlonkConstraint { st with nbVars := st.nbVars + 1 }
        ⟨tx.vid, ty.vid, st.nbVars, tx.coeff, -ty.coeff, 0, -1, 0, .none⟩)
      ⟨st.nbVars, 1⟩ t one_ne_zero htc
    rw [this]
    rfl
  have hadd : Add (addPlonkConstraint { st with
          nbVars := st.nbVars + 2,
          gates := st.gates ++
            [⟨tx.vid, ty.vid, st.nbVars, tx.coeff, -ty.coeff, 0, -1, 0, .none⟩] }
        ⟨st.nbVars, t.vid, st.nbVars + 1, 0, 0, 1 * 1 * t.coeff, -1, 0, .none⟩)
      (.term ⟨st.nbVars + 1, 1⟩) (.term ty) [] =
      (.term ⟨st.nbVars + 2, 1⟩,
       addPlonkConstraint { st with
           nbVars := st.nbVars + 3,
           gates := (st.gates ++
             [⟨tx.vid, ty.vid, st.nbVars, tx.coeff, -ty.coeff, 0, -1, 0, .none⟩]) ++
             [⟨st.nbVars, t.vid, st.nbVars + 1, 0, 0, 1 * 1 * t.coeff, -1, 0,
               .none⟩] }
         ⟨st.nbVars + 1, ty.vid, st.nbVars + 2, 1, ty.coeff, 0, -1, 0, .none⟩) := by
    have := Add_term_pair (addPlonkConstraint { st with
          nbVars := st.nbVars + 2,
          gates := st.gates ++
            [⟨tx.vid, ty.vid, st.nbVars, tx.coeff, -ty.coeff, 0, -1, 0, .none⟩] }
        ⟨st.nbVars, t.vid, st.nbVars + 1, 0, 0, 1 * 1 * t.coeff, -1, 0, .none⟩)
      ⟨st.nbVars + 1, 1⟩ ty hne2
    rw [this]
    rfl
  have hsel : Select st (.term t) (.term tx) (.term ty) =
      (some (Add (Mul (Sub st (.term tx) (.term ty) []).2
          (Sub st (.term tx) (.term ty) []).1 (.term t) []).2
        (Mul (Sub st (.term tx) (.term ty) []).2
          (Sub st (.term tx) (.term ty) []).1 (.term t) []).1 (.term ty) []).1,
       (Add (Mul (Sub st (.term tx) (.term ty) []).2
          (Sub st (.term tx) (.term ty) []).1 (.term t) []).2
        (Mul (Sub st (.term tx) (.term ty) []).2
          (Sub st (.term tx) (.term ty) []).1 (.term t) []).1 (.term ty) []).2) := by
    simp only [Select, hAt]
  rw [hsel, hsub]
  simp only []
  rw [hmul]
  simp only []
  rw [hadd]
  simp only [one_mul]
  rw [Prod.mk.injEq]
  constructor
  · rfl
  · cases st
    simp [addPlonkConstraint]


instance : Fact (Nat.Prime 5) := ⟨by norm_num⟩

/-! ## Claim theorems -/

/-- Claim C1: for a constant operand, `IsZero` resolves directly (1 when
zero, 0 otherwise); for a variable operand it allocates `m`, requests
exactly one hint output `inv`, emits exactly the two gates
`x·inv + m − 1 = 0` and `x·m = 0`, marks `m` boolean, and under any
satisfying assignment (hint contract included in `Sat`) `m = 1` iff
`x = 0` in the field. -/
theorem claim_C1_IsZero (p : ℕ) [Fact p.Prime] (st : BuilderState (ZMod p))
    (a : Term (ZMod p)) :
    (∀ c : ZMod p,
      IsZero st (.const c) = (if c = 0 then (.const 1, st) else (.const 0, st))) ∧
    (IsZero st (.term a)).1 = .term ⟨st.nbVars, 1⟩ ∧
    (IsZero st (.term a)).2.gates = st.gates ++
      [⟨a.vid, st.nbVars + 1, st.nbVars, 0, 0, a.coeff, 1, -1, .none⟩,
       ⟨a.vid, st.nbVars, 0, 0, 0, a.coeff, 0, 0, .none⟩] ∧
    (IsZero st (.term a)).2.hints = st.hints ++
      [⟨.invZero, [.term a], [st.nbVars + 1]⟩] ∧
    (IsZero st (.term a)).2.booleans = st.booleans ++ [⟨st.nbVars, 1⟩] ∧
    (∀ σ : Nat → ZMod p, Sat σ (IsZero st (.term a)).2 →
      (varVal σ (IsZero st (.term a)).1 = 1 ↔ varVal σ (.term a) = 0)) := by
  refine ⟨fun c => by by_cases h : c = 0 <;> simp [IsZero, h], rfl, by simp [IsZero,
    NewHint, MarkBoolean, addPlonkConstraint, newInternalVariable, gate0,
    show List.range 1 = [0] from rfl], rfl, rfl, ?_⟩
  intro σ hsat
  obtain ⟨_, hval⟩ := IsZero_sound σ st (.term a)
  rw [hval hsat.1]
  by_cases h : varVal σ (.term a) = 0
  · simp [h]
  · simp only [if_neg h]
    constructor
    · intro h01
      exact absurd h01.symm one_ne_zero
    · intro hx
      exact absurd hx h

/-- Witness for C1 at `p = 5`: the state after `IsZero` on wire 0 with the
assignment `x = 0, m = 1, inv = 0` is satisfying, and the theorem then
yields `m = 1 ↔ x = 0` there. -/
theorem claim_C1_IsZero_witness :
    Sat (fun n => if n = 1 then 1 else 0)
      ((IsZero (⟨1, [], [], [], [], [], false⟩ : BuilderState (ZMod 5))
        (.term ⟨0, 1⟩)).2) ∧
    (varVal (fun n => if n = 1 then 1 else 0)
        (IsZero (⟨1, [], [], [], [], [], false⟩ : BuilderState (ZMod 5))
          (.term ⟨0, 1⟩)).1 = 1 ↔
      varVal (fun n => if n = 1 then (1 : ZMod 5) else 0) (.term ⟨0, 1⟩) = 0) := by
  refine ⟨by decide, ?_⟩
  exact (claim_C1_IsZero 5 ⟨1, [], [], [], [], [], false⟩ ⟨0, 1⟩).2.2.2.2.2
    (fun n => if n = 1 then 1 else 0) (by decide)

/-- Claim C2: `Select(cond, x, y)` resolves statically for a constant
condition (panicking on a non-boolean constant, emitting no gate) and for
a variable condition computes `u = x − y; l = u·cond; result = l + y`, so
that under any satisfying assignment the result is `x` when `cond = 1`
and `y` when `cond = 0`. -/
theorem claim_C2_Select (p : ℕ) [Fact p.Prime] (st : BuilderState (ZMod p))
    (x y : Var (ZMod p)) (t : Term (ZMod p)) :
    (∀ c : ZMod p, c ≠ 0 → c ≠ 1 →
      Select st (.const c) x y = (Option.none, st)) ∧
    Select st (.const 1) x y = (some x, st) ∧
    Select st (.const 0) x y = (some y, st) ∧
    (∃ r st', Select st (.term t) x y = (some r, st') ∧ Extends st st' ∧
      ∀ σ : Nat → ZMod p, Sat σ st' →
        varVal σ r = (varVal σ x - varVal σ y) * varVal σ (.term t) + varVal σ y ∧
        (varVal σ (.term t) = 1 → varVal σ r = varVal σ x) ∧
        (varVal σ (.term t) = 0 → varVal σ r = varVal σ y)) ∧
    (∀ tx ty : Term (ZMod p), t ∈ st.booleans → t.coeff ≠ 0 →
      ¬ ty.vid = tx.vid → ¬ ty.vid = st.nbVars + 1 →
      Select st (.term t) (.term tx) (.term ty) =
        (some (.term ⟨st.nbVars + 2, 1⟩),
         { st with
             nbVars := st.nbVars + 3,
             gates := st.gates ++
               [⟨tx.vid, ty.vid, st.nbVars, tx.coeff, -ty.coeff, 0, -1, 0, .none⟩,
                ⟨st.nbVars, t.vid, st.nbVars + 1, 0, 0, t.coeff, -1, 0, .none⟩,
                ⟨st.nbVars + 1, ty.vid, st.nbVars + 2, 1, ty.coeff, 0, -1, 0,
                 .none⟩] })) := by
  refine ⟨?_, ?_, ?_, ?_, fun tx ty h1 h2 h3 h4 => Select_gates st t tx ty h1 h2 h3 h4⟩
  · intro c h0 h1
    simp [Select, h0, h1]
  · simp [Select, one_ne_zero]
  · simp [Select]
  · obtain ⟨r, st', heq, hext, hval⟩ :=
      Select_sound (F := ZMod p) (fun _ => 0) st (.term t) x y (.inl ⟨t, rfl⟩)
    refine ⟨r, st', heq, hext, ?_⟩
    intro σ hsat
    obtain ⟨r', st'', heq', hext', hval'⟩ :=
      Select_sound (F := ZMod p) σ st (.term t) x y (.inl ⟨t, rfl⟩)
    rw [heq] at heq'
    obtain ⟨hr, hst⟩ : r' = r ∧ st'' = st' := by
      constructor <;> [exact (congrArg (fun q => (Option.getD q.1 r)) heq'.symm : _);
        exact (congrArg Prod.snd heq'.symm : _)]
    subst hr hst
    have hv := hval' hsat.1
    refine ⟨hv, ?_, ?_⟩
    · intro h1
      rw [hv, h1]
      ring
    · intro h0
      rw [hv, h0]
      ring

/-- Witness for C2 at `p = 5`: static resolution for boolean constants,
and panic for the non-boolean constant 2. -/
theorem claim_C2_Select_witness :
    Select (⟨3, [], [⟨2, 1⟩], [], [], [], false⟩ : BuilderState (ZMod 5))
      (.const 1) (.const 3) (.const 4) =
      (some (.const 3), ⟨3, [], [⟨2, 1⟩], [], [], [], false⟩) ∧
    Select (⟨3, [], [⟨2, 1⟩], [], [], [], false⟩ : BuilderState (ZMod 5))
      (.const 0) (.const 3) (.const 4) =
      (some (.const 4), ⟨3, [], [⟨2, 1⟩], [], [], [], false⟩) ∧
    Select (⟨3, [], [⟨2, 1⟩], [], [], [], false⟩ : BuilderState (ZMod 5))
      (.const 2) (.const 3) (.const 4) =
      (Option.none, ⟨3, [], [⟨2, 1⟩], [], [], [], false⟩) :=
  ⟨(claim_C2_Select 5 _ (.const 3) (.const 4) ⟨2, 1⟩).2.1,
   (claim_C2_Select 5 _ (.const 3) (.const 4) ⟨2, 1⟩).2.2.1,
   (claim_C2_Select 5 _ (.const 3) (.const 4) ⟨2, 1⟩).1 2 (by decide) (by decide)⟩

/-- Claim C4: when the operand list of `Mul` contains a variable but the
folded constant factor is zero (or a variable term carries a zero
coefficient), `Mul` returns the constant 0 and emits no gate. -/
theorem claim_C4_Mul_zero (p : ℕ) [Fact p.Prime] (st : BuilderState (ZMod p))
    (i1 i2 : Var (ZMod p)) (rest : List (Var (ZMod p)))
    (hvar : ∃ v ∈ i1 :: i2 :: rest, ∃ t, v = Var.term t)
    (hz : (filterConstantProd (i1 :: i2 :: rest)).2 = 0 ∨
      ∃ t ∈ (filterConstantProd (i1 :: i2 :: rest)).1, t.coeff = 0) :
    Mul st i1 i2 rest = (.const 0, st) := by
  rcases hfc : filterConstantProd (i1 :: i2 :: rest) with ⟨vars, k⟩
  rw [hfc] at hz
  cases vars with
  | nil =>
      have hk : k = 0 := by
        rcases hz with hk | ⟨t, ht, _⟩
        · exact hk
        · exact absurd ht (List.not_mem_nil t)
      subst hk
      simp only [Mul, hfc]
  | cons v0 vs =>
      by_cases hk : k = 0
      · simp only [Mul, hfc]
        rw [if_pos hk]
      · rcases hz with hk' | ⟨t, ht, htz⟩
        · exact absurd hk' hk
        · have hany : (v0 :: vs).any (fun t => t.coeff == 0) = true :=
            List.any_eq_true.mpr ⟨t, ht, beq_iff_eq.mpr htz⟩
          simp only [Mul, hfc]
          rw [if_neg hk, if_pos hany]

/-- Witness for C4 at `p = 5`: multiplying wire 0 by the constant 0
returns the constant 0 and leaves the state unchanged. -/
theorem claim_C4_Mul_zero_witness :
    Mul (⟨1, [], [], [], [], [], false⟩ : BuilderState (ZMod 5))
      (.term ⟨0, 1⟩) (.const 0) [] =
      (.const 0, ⟨1, [], [], [], [], [], false⟩) :=
  claim_C4_Mul_zero 5 _ _ _ _
    ⟨.term ⟨0, 1⟩, by simp, ⟨0, 1⟩, rfl⟩ (by left; decide)

/-- Claim C7: `Inverse`, `DivUnchecked` and `Div` on a compile-time
constant zero divisor (or inverted operand) panic immediately and emit no
gate: the result is `none` with the state unchanged. -/
theorem claim_C7_div_zero_panic (p : ℕ) [Fact p.Prime]
    (st : BuilderState (ZMod p)) (x : Var (ZMod p)) :
    Inverse st (.const 0) = (Option.none, st) ∧
    DivUnchecked st x (.const 0) = (Option.none, st) ∧
    Div st x (.const 0) = (Option.none, st) := by
  refine ⟨by simp [Inverse], ?_, ?_⟩
  · cases x <;> simp [DivUnchecked]
  · simp [Div, Inverse]

/-- Witness for C7 at `p = 5` with dividend wire 0. -/
theorem claim_C7_div_zero_panic_witness :
    Inverse (⟨1, [], [], [], [], [], false⟩ : BuilderState (ZMod 5)) (.const 0) =
      (Option.none, ⟨1, [], [], [], [], [], false⟩) ∧
    Div (⟨1, [], [], [], [], [], false⟩ : BuilderState (ZMod 5))
      (.term ⟨0, 1⟩) (.const 0) =
      (Option.none, ⟨1, [], [], [], [], [], false⟩) :=
  ⟨(claim_C7_div_zero_panic 5 _ (.term ⟨0, 1⟩)).1,
   (claim_C7_div_zero_panic 5 _ (.term ⟨0, 1⟩)).2.2⟩

/-- Claim C9: `Commit` over a designated small field fails immediately
with an error and emits no gate (state unchanged). -/
theorem claim_C9_Commit_smallField (p : ℕ) [Fact p.Prime]
    (st : BuilderState (ZMod p)) (vs : List (Var (ZMod p)))
    (h : st.smallField = true) :
    Commit st vs = (.error "commitment not supported for small field", st) := by
  simp [Commit, h]

/-- Witness for C9 at `p = 5` on a small-field-flagged state. -/
theorem claim_C9_Commit_smallField_witness :
    Commit (⟨1, [], [], [], [], [], true⟩ : BuilderState (ZMod 5))
      [.term ⟨0, 1⟩] =
      (.error "commitment not supported for small field",
       ⟨1, [], [], [], [], [], true⟩) :=
  claim_C9_Commit_smallField 5 _ _ rfl

/-- Claim C6: when `a` shares a wire with `c` (or, after swapping, with
`b`), `MulAcc(a, b, c)` takes the fast path: exactly one gate with
`qL = a`'s coefficient, `qM` the product of `b`'s and `c`'s coefficients
and `qO = −1`; under every satisfying assignment the result equals
`a + b·c`, the value of the general `Add(a, Mul(b, c))` construction,
which is proved to have the same value. -/
theorem claim_C6_MulAcc_fastTrack (p : ℕ) [Fact p.Prime]
    (st : BuilderState (ZMod p)) (ta tb tc : Term (ZMod p))
    (hshare : ta.vid = tc.vid ∨ ta.vid = tb.vid) :
    (MulAcc st (.term ta) (.term tb) (.term tc)).1 = .term ⟨st.nbVars, 1⟩ ∧
    (MulAcc st (.term ta) (.term tb) (.term tc)).2.gates = st.gates ++
      [⟨ta.vid, if ta.vid = tb.vid then tc.vid else tb.vid, st.nbVars,
        ta.coeff, 0, tb.coeff * tc.coeff, -1, 0, .none⟩] ∧
    (∀ σ : Nat → ZMod p, Sat σ (MulAcc st (.term ta) (.term tb) (.term tc)).2 →
      varVal σ (MulAcc st (.term ta) (.term tb) (.term tc)).1 =
        varVal σ (.term ta) + varVal σ (.term tb) * varVal σ (.term tc)) ∧
    (∀ σ : Nat → ZMod p,
      Sat σ (Add (Mul st (.term tb) (.term tc) []).2 (.term ta)
        (Mul st (.term tb) (.term tc) []).1 []).2 →
      varVal σ (Add (Mul st (.term tb) (.term tc) []).2 (.term ta)
          (Mul st (.term tb) (.term tc) []).1 []).1 =
        varVal σ (.term ta) + varVal σ (.term tb) * varVal σ (.term tc)) := by
  have hgen : ∀ σ : Nat → ZMod p,
      Sat σ (Add (Mul st (.term tb) (.term tc) []).2 (.term ta)
        (Mul st (.term tb) (.term tc) []).1 []).2 →
      varVal σ (Add (Mul st (.term tb) (.term tc) []).2 (.term ta)
          (Mul st (.term tb) (.term tc) []).1 []).1 =
        varVal σ (.term ta) + varVal σ (.term tb) * varVal σ (.term tc) := by
    intro σ hsat
    obtain ⟨em, vm⟩ := Mul_sound σ st (.term tb) (.term tc) []
    obtain ⟨ea, va⟩ := Add_sound σ (Mul st (.term tb) (.term tc) []).2 (.term ta)
      (Mul st (.term tb) (.term tc) []).1 []
    rw [va hsat.1, vm (SatGates.extend ea hsat.1)]
    simp only [sumV_nil, prodV_nil, add_zero, mul_one]
  by_cases hswap : ta.vid = tb.vid
  · have hb : (if ta.vid = tb.vid then tc else tb) = tc := if_pos hswap
    have hc : (if ta.vid = tb.vid then tb else tc) = tb := if_pos hswap
    have hunf : MulAcc st (.term ta) (.term tb) (.term tc) =
        (.term ⟨st.nbVars, 1⟩,
         addPlonkConstraint { st with nbVars := st.nbVars + 1 }
           ⟨ta.vid, tc.vid, st.nbVars, ta.coeff, 0, tc.coeff * tb.coeff, -1, 0,
            .none⟩) := by
      simp only [MulAcc, mulAccFastTrack, hb, hc, if_pos hswap]
      rfl
    rw [hunf]
    refine ⟨rfl, ?_, ?_, hgen⟩
    · simp only [addPlonkConstraint, if_pos hswap]
      rw [mul_comm tc.coeff tb.coeff]
    · intro σ hsat
      have hg : gateEval σ
          ⟨ta.vid, tc.vid, st.nbVars, ta.coeff, 0, tc.coeff * tb.coeff, -1, 0,
           .none⟩ = 0 :=
        hsat.1 _ (by simp [addPlonkConstraint])
      simp only [gateEval] at hg
      simp only [varVal_term]
      rw [hswap] at hg ⊢
      linear_combination -hg
  · have hshare' : ta.vid = tc.vid := hshare.resolve_right hswap
    have hb : (if ta.vid = tb.vid then tc else tb) = tb := if_neg hswap
    have hc : (if ta.vid = tb.vid then tb else tc) = tc := if_neg hswap
    have hunf : MulAcc st (.term ta) (.term tb) (.term tc) =
        (.term ⟨st.nbVars, 1⟩,
         addPlonkConstraint { st with nbVars := st.nbVars + 1 }
           ⟨ta.vid, tb.vid, st.nbVars, ta.coeff, 0, tb.coeff * tc.coeff, -1, 0,
            .none⟩) := by
      simp only [MulAcc, mulAccFastTrack, hb, hc, if_pos hshare']
      rfl
    rw [hunf]
    refine ⟨rfl, ?_, ?_, hgen⟩
    · simp only [addPlonkConstraint, if_neg hswap]
    · intro σ hsat
      have hg : gateEval σ
          ⟨ta.vid, tb.vid, st.nbVars, ta.coeff, 0, tb.coeff * tc.coeff, -1, 0,
           .none⟩ = 0 :=
        hsat.1 _ (by simp [addPlonkConstraint])
      simp only [gateEval] at hg
      simp only [varVal_term]
      rw [hshare'] at hg ⊢
      linear_combination -hg

/-- Witness for C6 at `p = 5`: `a = v0, b = v1, c = v0` with assignment
`v0 = 2, v1 = 3`; the single fast-path gate is satisfied by the result
`2 + 3·2 = 3` and the theorem yields the accumulate value. -/
theorem claim_C6_MulAcc_fastTrack_witness :
    (MulAcc (⟨2, [], [], [], [], [], false⟩ : BuilderState (ZMod 5))
      (.term ⟨0, 1⟩) (.term ⟨1, 1⟩) (.term ⟨0, 1⟩)).2.gates =
      [⟨0, 1, 2, 1, 0, 1, -1, 0, .none⟩] ∧
    varVal (fun n => if n = 0 then 2 else if n = 1 then 3 else 3)
      (MulAcc (⟨2, [], [], [], [], [], false⟩ : BuilderState (ZMod 5))
        (.term ⟨0, 1⟩) (.term ⟨1, 1⟩) (.term ⟨0, 1⟩)).1 = 2 + 3 * 2 := by
  have h := claim_C6_MulAcc_fastTrack 5 ⟨2, [], [], [], [], [], false⟩
    ⟨0, 1⟩ ⟨1, 1⟩ ⟨0, 1⟩ (by left; rfl)
  refine ⟨by rw [h.2.1]; decide, ?_⟩
  have hv := h.2.2.1 (fun n => if n = 0 then 2 else if n = 1 then 3 else 3)
    (by refine ⟨?_, by decide, by decide⟩
        rw [h.2.1]
        decide)
  rw [hv]
  decide

/-- Claim C10 (amended): with both operands non-constant, `Div` emits
exactly one constraint more than `DivUnchecked` (the `Inverse` gate),
forcing `i2 ≠ 0` under every satisfying assignment, whereas
`DivUnchecked` emits only the single gate `res·i2 − i1 = 0`, which the
all-zero assignment satisfies with `i2 = 0` and which forces `i1 = 0`
when `i2 = 0`; for a constant `i1`, `DivUnchecked` instead routes through
`Inverse(i2)` and likewise forbids `i2 = 0` (see the counterexample). -/
theorem claim_C10_Div_vs_DivUnchecked (p : ℕ) [Fact p.Prime]
    (st : BuilderState (ZMod p)) (t1 t2 : Term (ZMod p)) :
    (DivUnchecked st (.term t1) (.term t2)).1 = some (.term ⟨st.nbVars, 1⟩) ∧
    (DivUnchecked st (.term t1) (.term t2)).2.gates = st.gates ++
      [⟨st.nbVars, t2.vid, t1.vid, 0, 0, t2.coeff, -t1.coeff, 0, .none⟩] ∧
    (Div st (.term t1) (.term t2)).2.gates.length =
      (DivUnchecked st (.term t1) (.term t2)).2.gates.length + 1 ∧
    (∀ σ : Nat → ZMod p, Sat σ (Div st (.term t1) (.term t2)).2 →
      varVal σ (.term t2) ≠ 0) ∧
    (∀ σ : Nat → ZMod p,
      gateEval σ (⟨st.nbVars, t2.vid, t1.vid, 0, 0, t2.coeff, -t1.coeff, 0,
        .none⟩ : Gate (ZMod p)) = 0 →
      varVal σ (.term t2) = 0 → varVal σ (.term t1) = 0) ∧
    gateEval (fun _ => (0 : ZMod p))
      (⟨st.nbVars, t2.vid, t1.vid, 0, 0, t2.coeff, -t1.coeff, 0,
        .none⟩ : Gate (ZMod p)) = 0 := by
  refine ⟨rfl,
    by simp [DivUnchecked, addPlonkConstraint, newInternalVariable, gate0],
    ?_, ?_, ?_, by simp [gateEval]⟩
  · simp [Div, Inverse, DivUnchecked, addPlonkConstraint, newInternalVariable]
  · intro σ hsat hz2
    have hg : gateEval σ
        ⟨st.nbVars, t2.vid, 0, 0, 0, t2.coeff, 0, -1, .none⟩ = 0 := by
      refine hsat.1 _ ?_
      simp [Div, Inverse, DivUnchecked, addPlonkConstraint, newInternalVariable,
        gate0]
    simp only [gateEval] at hg
    simp only [varVal_term] at hz2
    have : (1 : ZMod p) = 0 := by
      linear_combination -hg + σ st.nbVars * hz2
    exact one_ne_zero this
  · intro σ hg hz2
    simp only [gateEval] at hg
    simp only [varVal_term] at hz2 ⊢
    linear_combination -hg + σ st.nbVars * hz2

/-- Witness for C10 at `p = 5`: the all-zero assignment satisfies the
single `DivUnchecked` gate with `i2 = 0`, and on a satisfying state of
`Div` the divisor is nonzero. -/
theorem claim_C10_Div_vs_DivUnchecked_witness :
    gateEval (fun _ => (0 : ZMod 5))
      (⟨1, 0, 2, 0, 0, 1, -1, 0, .none⟩ : Gate (ZMod 5)) = 0 ∧
    (Div (⟨3, [], [], [], [], [], false⟩ : BuilderState (ZMod 5))
      (.term ⟨2, 1⟩) (.term ⟨0, 1⟩)).2.gates.length =
      (DivUnchecked (⟨3, [], [], [], [], [], false⟩ : BuilderState (ZMod 5))
        (.term ⟨2, 1⟩) (.term ⟨0, 1⟩)).2.gates.length + 1 := by
  have h := claim_C10_Div_vs_DivUnchecked 5 ⟨3, [], [], [], [], [], false⟩
    ⟨2, 1⟩ ⟨0, 1⟩
  exact ⟨h.2.2.2.2.2, h.2.2.1⟩

/-- Counterexample for C10 as stated: with the constant dividend
`i1 = 1`, `DivUnchecked` still emits a single gate, but that gate is the
`Inverse` gate `res·i2 − 1 = 0`, which no assignment satisfies with
`i2 = 0` — the claim's "satisfiable with `i2 = 0`" clause fails for
constant `i1`. -/
theorem claim_C10_counterexample :
    (DivUnchecked (⟨1, [], [], [], [], [], false⟩ : BuilderState (ZMod 5))
      (.const 1) (.term ⟨0, 1⟩)).2.gates.length = 1 ∧
    ∀ σ : Nat → ZMod 5,
      SatGates σ (DivUnchecked (⟨1, [], [], [], [], [], false⟩ :
        BuilderState (ZMod 5)) (.const 1) (.term ⟨0, 1⟩)).2.gates →
      ¬ varVal σ (.term (⟨0, 1⟩ : Term (ZMod 5))) = 0 := by
  refine ⟨by decide, ?_⟩
  intro σ hsat hz
  have hg : gateEval σ (⟨1, 0, 0, 0, 0, 1, 0, -1, .none⟩ : Gate (ZMod 5)) = 0 := by
    refine hsat _ ?_
    simp [DivUnchecked, Inverse, addPlonkConstraint, newInternalVariable, gate0]
  simp only [gateEval] at hg
  simp only [varVal_term] at hz
  have : (1 : ZMod 5) = 0 := by
    linear_combination -hg + σ 1 * hz
  exact one_ne_zero this

end SCS

namespace SCS

variable {F : Type} [Field F] [DecidableEq F]

theorem filterConstants_map_term (ts : List (Term F)) :
    filterConstants (ts.map Var.term) = ts.map Var.term := by
  induction ts with
  | nil => rfl
  | cons t rest ih => simp [filterConstants, ih]

theorem commitLoop_spec (ts : List (Term F)) :
    ∀ st : BuilderState F,
      commitLoop st (ts.map Var.term) =
        ((List.range ts.length).map (st.gates.length + ·),
         { st with gates := st.gates ++
             ts.map (fun t => ⟨t.vid, 0, 0, -t.coeff, 0, 0, 0, 0, .committed⟩) }) := by
  induction ts with
  | nil => intro st; cases st; simp [commitLoop]
  | cons t rest ih =>
      intro st
      have hunf : commitLoop st ((t :: rest).map Var.term) =
          (st.gates.length ::
            (commitLoop (addPlonkConstraint st
              ⟨t.vid, 0, 0, -t.coeff, 0, 0, 0, 0, .committed⟩) (rest.map Var.term)).1,
           (commitLoop (addPlonkConstraint st
              ⟨t.vid, 0, 0, -t.coeff, 0, 0, 0, 0, .committed⟩) (rest.map Var.term)).2) := rfl
      rw [hunf, ih]
      rw [Prod.mk.injEq]
      constructor
      · simp only [addPlonkConstraint, List.length_append, List.length_singleton,
          List.length_cons, List.range_succ_eq_map, List.map_cons, List.map_map,
          Function.comp, Nat.add_zero]
        congr 1
        apply List.map_congr_left
        intro i _
        simp only [Function.comp, List.length_nil]
        omega
      · cases st
        simp [addPlonkConstraint]

/-- Claim C8: `Commit(values…)` (on non-constant values) negates each
committed value and emits one `committed`-tagged gate per value,
recording each gate index; requests one hint whose first input is the
commitment depth; and emits exactly one further `commitment`-tagged gate
whose index is recorded as the commitment constraint index. -/
theorem claim_C8_Commit (p : ℕ) [Fact p.Prime] (st : BuilderState (ZMod p))
    (ts : List (Term (ZMod p))) (hsf : st.smallField = false) :
    (Commit st (ts.map Var.term)).1 = .ok (.term ⟨st.nbVars, 1⟩) ∧
    (Commit st (ts.map Var.term)).2.gates = st.gates ++
      ts.map (fun t => (⟨t.vid, 0, 0, -t.coeff, 0, 0, 0, 0, .committed⟩ :
        Gate (ZMod p))) ++
      [⟨st.nbVars, 0, 0, -1, 0, 0, 0, 0, .commitment⟩] ∧
    (Commit st (ts.map Var.term)).2.hints = st.hints ++
      [⟨.commitPlaceholder,
        Var.const (st.commitments.length : ZMod p) :: ts.map Var.term,
        [st.nbVars]⟩] ∧
    (Commit st (ts.map Var.term)).2.commitments = st.commitments ++
      [⟨st.gates.length + ts.length,
        (List.range ts.length).map (st.gates.length + ·)⟩] := by
  have hif : (Commit st (ts.map Var.term)) =
      (if st.smallField then
        (.error "commitment not supported for small field", st)
      else _) := rfl
  simp only [Commit, hsf, Bool.false_eq_true, if_false,
    filterConstants_map_term, commitLoop_spec ts st]
  simp only [NewHint, Neg, addPlonkConstraint, gate0,
    show List.range 1 = [0] from rfl, List.map_cons, List.map_nil]
  refine ⟨rfl, ?_, ?_, ?_⟩
  · simp [List.append_assoc]
  · simp
  · simp [List.length_append, List.length_map]

/-- Witness for C8 at `p = 5`: committing wires 0 and 1 records gate
indices 0 and 1, the depth-0 hint, and commitment constraint index 2. -/
theorem claim_C8_Commit_witness :
    (Commit (⟨2, [], [], [], [], [], false⟩ : BuilderState (ZMod 5))
      [.term ⟨0, 1⟩, .term ⟨1, 2⟩]).2.gates =
      [⟨0, 0, 0, -1, 0, 0, 0, 0, .committed⟩,
       ⟨1, 0, 0, -2, 0, 0, 0, 0, .committed⟩,
       ⟨2, 0, 0, -1, 0, 0, 0, 0, .commitment⟩] ∧
    (Commit (⟨2, [], [], [], [], [], false⟩ : BuilderState (ZMod 5))
      [.term ⟨0, 1⟩, .term ⟨1, 2⟩]).2.commitments = [⟨2, [0, 1]⟩] := by
  have h := claim_C8_Commit 5 ⟨2, [], [], [], [], [], false⟩
    [⟨0, 1⟩, ⟨1, 2⟩] rfl
  constructor
  · rw [show ([Var.term ⟨0, 1⟩, Var.term ⟨1, 2⟩] : List (Var (ZMod 5))) =
      ([⟨0, 1⟩, ⟨1, 2⟩] : List (Term (ZMod 5))).map Var.term from rfl, h.2.1]
    decide
  · rw [show ([Var.term ⟨0, 1⟩, Var.term ⟨1, 2⟩] : List (Var (ZMod 5))) =
      ([⟨0, 1⟩, ⟨1, 2⟩] : List (Term (ZMod 5))).map Var.term from rfl, h.2.2.2]
    decide

theorem Mul_const_const (st : BuilderState F) (a b : F) :
    Mul st (.const a) (.const b) [] = (.const (a * b), st) := by
  by_cases ha : a = 0
  · subst ha
    simp [Mul, filterConstantProd, filterConstantProdAux]
  · by_cases hb : b = 0
    · subst hb
      simp [Mul, filterConstantProd, filterConstantProdAux, ha]
    · have hab : a * b ≠ 0 := mul_ne_zero ha hb
      simp [Mul, filterConstantProd, filterConstantProdAux, ha, hab]

end SCS

namespace SCS

/-- Claim C3 (amended): with both operands constant, `Xor`, `Or` and
`And` evaluate the truth table in-compiler with zero gates. With exactly
one constant operand, `Xor` substitutes the constant and emits a single
affine gate (`qM = 0`, no multiplication term), while `Or` and `And`
resolve statically with no gate at all: `Or` returns `1` or the variable
operand, `And` returns `0` or the (scaled) variable operand. -/
theorem claim_C3_boolean_ops (p : ℕ) [Fact p.Prime] (st : BuilderState (ZMod p))
    (t : Term (ZMod p)) (cb : ZMod p) (hmem : t ∈ st.booleans)
    (hb : cb = 0 ∨ cb = 1) (htc : t.coeff ≠ 0) :
    (∀ ca cb' : ZMod p, ca = 0 ∨ ca = 1 → cb' = 0 ∨ cb' = 1 →
      Xor st (.const ca) (.const cb') =
        (some (.const (if (ca = 1) = (cb' = 1) then 0 else 1)), st) ∧
      Or st (.const ca) (.const cb') =
        (some (.const (if ca = 1 ∨ cb' = 1 then 1 else 0)), st) ∧
      And st (.const ca) (.const cb') = (some (.const (ca * cb')), st)) ∧
    Xor st (.term t) (.const cb) =
      (some (.term ⟨st.nbVars, 1⟩),
       { st with nbVars := st.nbVars + 1,
                 booleans := st.booleans ++ [⟨st.nbVars, 1⟩],
                 gates := st.gates ++
                   [⟨t.vid, 0, st.nbVars, (1 - cb - cb) * t.coeff, 0, 0, -1, cb,
                     .none⟩] }) ∧
    (cb = 1 → Or st (.term t) (.const cb) = (some (.const 1), st)) ∧
    (cb = 0 → Or st (.term t) (.const cb) = (some (.term t), st)) ∧
    (cb = 1 → And st (.term t) (.const cb) =
      (some (.term ⟨t.vid, t.coeff⟩),
       { st with booleans := st.booleans ++ [⟨t.vid, t.coeff⟩] })) ∧
    (cb = 0 → And st (.term t) (.const cb) = (some (.const 0), st)) := by
  have hAt : AssertIsBoolean st (.term t) = some st := by
    show (if t ∈ st.booleans then some st else _) = some st
    rw [if_pos hmem]
  have hAc : AssertIsBoolean st (.const cb) = some st := by
    show (if cb = 0 ∨ cb = 1 then some st else none) = some st
    rw [if_pos hb]
  refine ⟨?_, ?_, ?_, ?_, ?_, ?_⟩
  · intro ca cb' hca hcb'
    have hAa : AssertIsBoolean st (.const ca) = some st := by
      show (if ca = 0 ∨ ca = 1 then some st else none) = some st
      rw [if_pos hca]
    have hAb : AssertIsBoolean st (.const cb') = some st := by
      show (if cb' = 0 ∨ cb' = 1 then some st else none) = some st
      rw [if_pos hcb']
    refine ⟨?_, ?_, ?_⟩
    · simp only [Xor, hAa, hAb]
    · simp only [Or, hAa, hAb]
    · simp only [And, hAa, hAb, Mul_const_const, MarkBoolean]
  · simp only [Xor, hAt, hAc, newInternalVariable, MarkBoolean, addPlonkConstraint,
      gate0]
  · intro h1
    subst h1
    simp [Or, hAt, hAc]
  · intro h0
    subst h0
    have h01 : (0 : ZMod p) ≠ 1 := zero_ne_one
    simp only [Or, hAt, hAc]
    rw [if_neg h01]
  · intro h1
    subst h1
    have hMul : Mul st (.term t) (.const 1) [] = (.term ⟨t.vid, t.coeff⟩, st) := by
      have hk : (1 : ZMod p) * 1 ≠ 0 := by simp
      simp [Mul, filterConstantProd, filterConstantProdAux, hk, htc, splitProd,
        mulConstant]
    simp only [And, hAt, hAc, hMul, MarkBoolean]
  · intro h0
    subst h0
    have hMul : Mul st (.term t) (.const 0) [] = (.const 0, st) := by
      simp [Mul, filterConstantProd, filterConstantProdAux]
    simp only [And, hAt, hAc, hMul, MarkBoolean]

/-- Witness for C3 at `p = 5`: concrete truth-table, `Xor` gate shape and
gate-free `Or`/`And` one-constant resolutions on a marked-boolean wire. -/
theorem claim_C3_boolean_ops_witness :
    Xor (⟨1, [], [⟨0, 1⟩], [], [], [], false⟩ : BuilderState (ZMod 5))
      (.const 1) (.const 1) =
      (some (.const 0), ⟨1, [], [⟨0, 1⟩], [], [], [], false⟩) ∧
    Or (⟨1, [], [⟨0, 1⟩], [], [], [], false⟩ : BuilderState (ZMod 5))
      (.term ⟨0, 1⟩) (.const 1) =
      (some (.const 1), ⟨1, [], [⟨0, 1⟩], [], [], [], false⟩) ∧
    And (⟨1, [], [⟨0, 1⟩], [], [], [], false⟩ : BuilderState (ZMod 5))
      (.term ⟨0, 1⟩) (.const 0) =
      (some (.const 0), ⟨1, [], [⟨0, 1⟩], [], [], [], false⟩) := by
  have h := claim_C3_boolean_ops 5 ⟨1, [], [⟨0, 1⟩], [], [], [], false⟩
    ⟨0, 1⟩ 1 (by decide) (by right; rfl) (by decide)
  have h0 := claim_C3_boolean_ops 5 ⟨1, [], [⟨0, 1⟩], [], [], [], false⟩
    ⟨0, 1⟩ 0 (by decide) (by left; rfl) (by decide)
  refine ⟨?_, h.2.2.1 rfl, h0.2.2.2.2.2 rfl⟩
  have := (h.1 1 1 (by right; rfl) (by right; rfl)).1
  rw [this]
  decide

/-- Counterexample for C3 as stated: `Or` on a variable and the constant
`1` emits no gate at all (it resolves statically to the constant `1`),
refuting the claim that each of `Xor`, `Or`, `And` reduces to a single
affine gate when exactly one operand is constant. -/
theorem claim_C3_counterexample :
    (Or (⟨1, [], [⟨0, 1⟩], [], [], [], false⟩ : BuilderState (ZMod 5))
      (.term ⟨0, 1⟩) (.const 1)).1 = some (.const 1) ∧
    (Or (⟨1, [], [⟨0, 1⟩], [], [], [], false⟩ : BuilderState (ZMod 5))
      (.term ⟨0, 1⟩) (.const 1)).2 =
      ⟨1, [], [⟨0, 1⟩], [], [], [], false⟩ ∧
    ¬ ((Or (⟨1, [], [⟨0, 1⟩], [], [], [], false⟩ : BuilderState (ZMod 5))
        (.term ⟨0, 1⟩) (.const 1)).2.gates.length =
      (⟨1, [], [⟨0, 1⟩], [], [], [], false⟩ :
        BuilderState (ZMod 5)).gates.length + 1) := by
  refine ⟨by decide, by decide, by decide⟩

end SCS

namespace SCS

/-! ## The `Cmp` scan: per-iteration soundness -/

variable {F : Type} [Field F] [DecidableEq F]

theorem IsZero_shape (st : BuilderState F) (v : Var F) :
    (∃ t, (IsZero st v).1 = .term t) ∨ (IsZero st v).1 = .const 0 ∨
      (IsZero st v).1 = .const 1 := by
  cases v with
  | const c =>
      by_cases h : c = 0
      · right; right; simp [IsZero, h]
      · right; left; simp [IsZero, h]
  | term t => exact .inl ⟨⟨st.nbVars, 1⟩, rfl⟩

/-- The field value computed by one `Cmp` iteration from the running
result `r` and the two bit values `a` and `b` (the composition of the
`IsZero`/`And`/`Select` value semantics of the loop body). -/
def stepVal (r a b : F) : F :=
  let iz1 : F := if a = 0 then 1 else 0
  let iz2 : F := if b = 0 then 1 else 0
  let i1i2 := a * iz2
  let i2i1 := b * iz1
  let vn := (-1 - 0) * i2i1 + 0
  let vm := (1 - vn) * i1i2 + vn
  (vm - r) * (if r = 0 then 1 else 0) + r

theorem cmpStep_sound (σ : Nat → F) (b1 b2 : List (Term F)) (i : Nat)
    (res : Var F) (st : BuilderState F) :
    ∃ res' st', cmpStep b1 b2 (some res, st) i = (some res', st') ∧
      Extends st st' ∧
      (SatGates σ st'.gates →
        varVal σ res' = stepVal (varVal σ res)
          (varVal σ (.term (b1.getD i ⟨0, 0⟩)))
          (varVal σ (.term (b2.getD i ⟨0, 0⟩)))) := by
  obtain ⟨e1, v1⟩ := IsZero_sound σ st (.term (b1.getD i ⟨0, 0⟩))
  obtain ⟨e2, v2⟩ := IsZero_sound σ (IsZero st (.term (b1.getD i ⟨0, 0⟩))).2
    (.term (b2.getD i ⟨0, 0⟩))
  have hz1 : (IsZero st (.term (b1.getD i ⟨0, 0⟩))).1 =
      .term (⟨st.nbVars, 1⟩ : Term F) := rfl
  have hz2 : (IsZero (IsZero st (.term (b1.getD i ⟨0, 0⟩))).2
      (.term (b2.getD i ⟨0, 0⟩))).1 =
      .term (⟨(IsZero st (.term (b1.getD i ⟨0, 0⟩))).2.nbVars, 1⟩ : Term F) := rfl
  obtain ⟨rA1, sA1, hA1eq, eA1, shA1, vA1⟩ :=
    And_sound σ (IsZero (IsZero st (.term (b1.getD i ⟨0, 0⟩))).2
        (.term (b2.getD i ⟨0, 0⟩))).2
      (b1.getD i ⟨0, 0⟩) ⟨(IsZero st (.term (b1.getD i ⟨0, 0⟩))).2.nbVars, 1⟩
  obtain ⟨rA2, sA2, hA2eq, eA2, shA2, vA2⟩ :=
    And_sound σ sA1 (b2.getD i ⟨0, 0⟩) ⟨st.nbVars, 1⟩
  obtain ⟨rS1, sS1, hS1eq, eS1, vS1⟩ :=
    Select_sound σ sA2 rA2 (.const (-1)) (.const 0)
      (shA2.imp id fun h => .inl h)
  obtain ⟨rS2, sS2, hS2eq, eS2, vS2⟩ :=
    Select_sound σ sS1 rA1 (.const 1) rS1 (shA1.imp id fun h => .inl h)
  obtain ⟨e7, v7⟩ := IsZero_sound σ sS2 res
  obtain ⟨rS3, sS3, hS3eq, eS3, vS3⟩ :=
    Select_sound σ (IsZero sS2 res).2 (IsZero sS2 res).1 rS2 res
      (IsZero_shape sS2 res)
  refine ⟨rS3, sS3, ?_, ?_, ?_⟩
  · simp only [cmpStep, hz2, hA1eq, hz1, hA2eq, hS1eq, hS2eq, hS3eq]
  · exact Extends.trans e1 (Extends.trans e2 (Extends.trans eA1
      (Extends.trans eA2 (Extends.trans eS1 (Extends.trans eS2
        (Extends.trans e7 eS3))))))
  · intro hsat
    have hsat7 := SatGates.extend eS3 hsat
    have hsatS2 := SatGates.extend e7 hsat7
    have hsatS1 := SatGates.extend eS2 hsatS2
    have hsatA2 := SatGates.extend eS1 hsatS1
    have hsatA1 := SatGates.extend eA2 hsatA2
    have hsat2 := SatGates.extend eA1 hsatA1
    have hsat1 := SatGates.extend e2 hsat2
    have hv1 := v1 hsat1
    have hv2 := v2 hsat2
    have hvA1 := vA1 hsatA1
    have hvA2 := vA2 hsatA2
    have hvS1 := vS1 hsatS1
    have hvS2 := vS2 hsatS2
    have hv7 := v7 hsat7
    have hvS3 := vS3 hsat
    rw [hz1] at hv1
    rw [hz2] at hv2
    simp only [varVal_term] at hv1 hv2
    rw [hv2] at hvA1
    rw [hv1] at hvA2
    rw [hvS3, hv7, hvS2, hvS1, hvA1, hvA2]
    simp only [stepVal, varVal_term, varVal_const]
end SCS

namespace SCS

/-! ## The `Cmp` scan: fold soundness and numeric correctness -/

variable {F : Type} [Field F] [DecidableEq F]

/-- The pure value-level fold of the `Cmp` scan over bit indices
`k-1, …, 0`. -/
def cmpValFold (σ : Nat → F) (b1 b2 : List (Term F)) (k : Nat) (r : F) : F :=
  ((List.range k).reverse).foldl
    (fun r i => stepVal r (varVal σ (.term (b1.getD i ⟨0, 0⟩)))
      (varVal σ (.term (b2.getD i ⟨0, 0⟩)))) r

theorem range_reverse_succ (k : Nat) :
    (List.range (k + 1)).reverse = k :: (List.range k).reverse := by
  rw [List.range_succ, List.reverse_append]
  rfl

theorem cmpValFold_succ (σ : Nat → F) (b1 b2 : List (Term F)) (k : Nat) (r : F) :
    cmpValFold σ b1 b2 (k + 1) r =
      cmpValFold σ b1 b2 k
        (stepVal r (varVal σ (.term (b1.getD k ⟨0, 0⟩)))
          (varVal σ (.term (b2.getD k ⟨0, 0⟩)))) := by
  simp [cmpValFold, range_reverse_succ]

theorem cmpFold_sound (σ : Nat → F) (b1 b2 : List (Term F)) :
    ∀ (k : Nat) (res : Var F) (st : BuilderState F),
      ∃ res' st',
        ((List.range k).reverse).foldl (cmpStep b1 b2) (some res, st) =
          (some res', st') ∧
        Extends st st' ∧
        (SatGates σ st'.gates →
          varVal σ res' = cmpValFold σ b1 b2 k (varVal σ res)) := by
  intro k
  induction k with
  | zero =>
      intro res st
      exact ⟨res, st, rfl, Extends.refl st, fun _ => rfl⟩
  | succ k ih =>
      intro res st
      rw [range_reverse_succ]
      obtain ⟨r1, s1, hstep, e1, vstep⟩ := cmpStep_sound σ b1 b2 k res st
      obtain ⟨r2, s2, hfold, e2, vfold⟩ := ih r1 s1
      refine ⟨r2, s2, ?_, Extends.trans e1 e2, ?_⟩
      · rw [List.foldl_cons, hstep, hfold]
      · intro hsat
        rw [vfold hsat, cmpValFold_succ, vstep (SatGates.extend e2 hsat)]

/-- Sign encoding of the comparison of two naturals in the field:
`1` if `Y < X`, `-1` if `X < Y`, `0` on a tie. -/
def cmpEnc (p : ℕ) (X Y : ℕ) : ZMod p :=
  if Y < X then 1 else if X < Y then -1 else 0

theorem negOne_ne_zero {p : ℕ} [Fact p.Prime] : (-1 : ZMod p) ≠ 0 :=
  neg_ne_zero.mpr one_ne_zero

theorem one_ne_negOne {p : ℕ} [Fact p.Prime] (hp : 2 < p) :
    (1 : ZMod p) ≠ -1 := by
  haveI : NeZero p := ⟨(Fact.out : p.Prime).ne_zero⟩
  intro h
  have h2 : ((2 : ℕ) : ZMod p) = 0 := by
    push_cast
    linear_combination h
  rw [ZMod.natCast_zmod_eq_zero_iff_dvd] at h2
  have := Nat.le_of_dvd (by norm_num) h2
  omega

theorem cmpEnc_iff {p : ℕ} [Fact p.Prime] (hp : 2 < p) (X Y : ℕ) :
    (cmpEnc p X Y = 1 ↔ Y < X) ∧ (cmpEnc p X Y = 0 ↔ X = Y) ∧
      (cmpEnc p X Y = -1 ↔ X < Y) := by
  unfold cmpEnc
  rcases Nat.lt_trichotomy X Y with h | h | h
  · have h1 : ¬ Y < X := by omega
    rw [if_neg h1, if_pos h]
    refine ⟨⟨fun hc => absurd hc.symm (one_ne_negOne hp), fun hc => by omega⟩,
      ⟨fun hc => absurd hc negOne_ne_zero, fun hc => by omega⟩,
      ⟨fun _ => h, fun _ => rfl⟩⟩
  · have h1 : ¬ Y < X := by omega
    have h2 : ¬ X < Y := by omega
    rw [if_neg h1, if_neg h2]
    refine ⟨⟨fun hc => absurd hc.symm one_ne_zero, fun hc => by omega⟩,
      ⟨fun _ => h, fun _ => rfl⟩,
      ⟨fun hc => absurd hc.symm negOne_ne_zero, fun hc => by omega⟩⟩
  · rw [if_pos h]
    refine ⟨⟨fun _ => h, fun _ => rfl⟩,
      ⟨fun hc => absurd hc one_ne_zero, fun hc => by omega⟩,
      ⟨fun hc => absurd hc (one_ne_negOne hp), fun hc => by omega⟩⟩

theorem stepVal_cmpEnc {p : ℕ} [Fact p.Prime] (hp : 2 < p) (A B : ℕ) :
    stepVal (cmpEnc p (A / 2) (B / 2))
      ((A % 2 : ℕ) : ZMod p) ((B % 2 : ℕ) : ZMod p) = cmpEnc p A B := by
  rcases Nat.lt_trichotomy (A / 2) (B / 2) with h | h | h
  · have hn1 : ¬ B / 2 < A / 2 := by omega
    have hr : cmpEnc p (A / 2) (B / 2) = -1 := by
      unfold cmpEnc
      rw [if_neg hn1, if_pos h]
    have hAB : A < B := by omega
    have hnBA : ¬ B < A := by omega
    rw [hr]
    simp only [stepVal, if_neg (negOne_ne_zero (p := p))]
    unfold cmpEnc
    rw [if_neg hnBA, if_pos hAB]
    ring
  · have hn1 : ¬ B / 2 < A / 2 := by omega
    have hn2 : ¬ A / 2 < B / 2 := by omega
    have hr : cmpEnc p (A / 2) (B / 2) = 0 := by
      unfold cmpEnc
      rw [if_neg hn1, if_neg hn2]
    rw [hr]
    simp only [stepVal, if_pos rfl]
    rcases Nat.mod_two_eq_zero_or_one A with hA | hA <;>
      rcases Nat.mod_two_eq_zero_or_one B with hB | hB
    · have hnBA : ¬ B < A := by omega
      have hnAB : ¬ A < B := by omega
      rw [hA, hB]
      unfold cmpEnc
      rw [if_neg hnBA, if_neg hnAB]
      push_cast
      simp
    · have hAB : A < B := by omega
      have hnBA : ¬ B < A := by omega
      rw [hA, hB]
      unfold cmpEnc
      rw [if_neg hnBA, if_pos hAB]
      push_cast
      rw [if_pos rfl, if_neg (one_ne_zero (α := ZMod p))]
      ring
    · have hBA : B < A := by omega
      rw [hA, hB]
      unfold cmpEnc
      rw [if_pos hBA]
      push_cast
      rw [if_neg (one_ne_zero (α := ZMod p)), if_pos rfl]
      ring
    · have hnBA : ¬ B < A := by omega
      have hnAB : ¬ A < B := by omega
      rw [hA, hB]
      unfold cmpEnc
      rw [if_neg hnBA, if_neg hnAB]
      push_cast
      rw [if_neg (one_ne_zero (α := ZMod p))]
      ring
  · have hr : cmpEnc p (A / 2) (B / 2) = 1 := by
      unfold cmpEnc
      rw [if_pos h]
    have hBA : B < A := by omega
    rw [hr]
    simp only [stepVal, if_neg (one_ne_zero (α := ZMod p))]
    unfold cmpEnc
    rw [if_pos hBA]
    ring
  
theorem cmpValFold_correct {p : ℕ} [Fact p.Prime] (hp : 2 < p)
    (σ : Nat → ZMod p) (b1 b2 : List (Term (ZMod p))) (n : ℕ) (X Y : ℕ)
    (hb1 : ∀ i, i < n →
      varVal σ (.term (b1.getD i ⟨0, 0⟩)) = ((X / 2 ^ i) % 2 : ℕ))
    (hb2 : ∀ i, i < n →
      varVal σ (.term (b2.getD i ⟨0, 0⟩)) = ((Y / 2 ^ i) % 2 : ℕ)) :
    ∀ k, k ≤ n →
      cmpValFold σ b1 b2 k (cmpEnc p (X / 2 ^ k) (Y / 2 ^ k)) = cmpEnc p X Y := by
  intro k
  induction k with
  | zero =>
      intro _
      show cmpEnc p (X / 2 ^ 0) (Y / 2 ^ 0) = cmpEnc p X Y
      rw [pow_zero, Nat.div_one, Nat.div_one]
  | succ k ih =>
      intro hkn
      rw [cmpValFold_succ, hb1 k (by omega), hb2 k (by omega)]
      have hXs : X / 2 ^ (k + 1) = (X / 2 ^ k) / 2 := by
        rw [Nat.div_div_eq_div_mul, pow_succ]
      have hYs : Y / 2 ^ (k + 1) = (Y / 2 ^ k) / 2 := by
        rw [Nat.div_div_eq_div_mul, pow_succ]
      rw [hXs, hYs, stepVal_cmpEnc hp]
      exact ih (by omega)

end SCS

namespace SCS

theorem range_map_getD {α : Type} (f : ℕ → α) (n i : ℕ) (h : i < n) (d : α) :
    ((List.range n).map f).getD i d = f i := by
  rw [List.getD_eq_getElem?_getD, List.getElem?_map, List.getElem?_range h]
  rfl

/-- Claim C5: `Cmp(x, y)` decomposes both operands into `nbBits`-bit
little-endian sequences and scans from the most-significant bit down,
freezing the running result at the first differing bit; under any
satisfying assignment whose operand values fit in `nbBits` bits, the
result is `1` iff `x > y`, `0` iff `x = y` and `-1` iff `x < y`, comparing
canonical representatives as integers in `[0, p)`. -/
theorem claim_C5_Cmp (p : ℕ) [Fact p.Prime] (hp : 2 < p) (n : ℕ)
    (st : BuilderState (ZMod p)) (t1 t2 : Term (ZMod p)) :
    ∃ r st', Cmp st n (.term t1) (.term t2) = (some r, st') ∧
      ∀ σ : Nat → ZMod p, Sat σ st' →
        (varVal σ (.term t1)).val < 2 ^ n →
        (varVal σ (.term t2)).val < 2 ^ n →
        ((varVal σ r = 1 ↔
            (varVal σ (.term t2)).val < (varVal σ (.term t1)).val) ∧
         (varVal σ r = 0 ↔
            (varVal σ (.term t1)).val = (varVal σ (.term t2)).val) ∧
         (varVal σ r = -1 ↔
            (varVal σ (.term t1)).val < (varVal σ (.term t2)).val)) := by
  have hunf : Cmp st n (.term t1) (.term t2) =
      ((List.range n).reverse).foldl
        (cmpStep (ToBinary st (.term t1) n).1
          (ToBinary (ToBinary st (.term t1) n).2 (.term t2) n).1)
        (some (.const 0),
         (ToBinary (ToBinary st (.term t1) n).2 (.term t2) n).2) := rfl
  obtain ⟨r, st', heq0, e0, _⟩ :=
    cmpFold_sound (fun _ => (0 : ZMod p)) (ToBinary st (.term t1) n).1
      (ToBinary (ToBinary st (.term t1) n).2 (.term t2) n).1 n (.const 0)
      (ToBinary (ToBinary st (.term t1) n).2 (.term t2) n).2
  refine ⟨r, st', by rw [hunf, heq0], ?_⟩
  intro σ hsat hX hY
  obtain ⟨r2, st2', heq2, e2, v2⟩ :=
    cmpFold_sound σ (ToBinary st (.term t1) n).1
      (ToBinary (ToBinary st (.term t1) n).2 (.term t2) n).1 n (.const 0)
      (ToBinary (ToBinary st (.term t1) n).2 (.term t2) n).2
  rw [heq0] at heq2
  have hfst : some r = some r2 := congrArg Prod.fst heq2
  have hr2 : r2 = r := (Option.some.inj hfst).symm
  have hst2 : st2' = st' := (congrArg Prod.snd heq2).symm
  subst hr2 hst2
  have hd1 : DecompSat σ
      (⟨.term t1, ((List.range n).map
        (fun i => (⟨st.nbVars + i, 1⟩ : Term (ZMod p)))).map Term.vid⟩ :
        Decomp (ZMod p)) := by
    apply hsat.2.2
    obtain ⟨l, hl⟩ := e2.2.2
    rw [hl]
    apply List.mem_append_left
    show _ ∈ ((ToBinary (ToBinary st (.term t1) n).2 (.term t2) n).2).decomps
    simp [ToBinary]
  have hd2 : DecompSat σ
      (⟨.term t2, ((List.range n).map
        (fun i => (⟨st.nbVars + n + i, 1⟩ : Term (ZMod p)))).map Term.vid⟩ :
        Decomp (ZMod p)) := by
    apply hsat.2.2
    obtain ⟨l, hl⟩ := e2.2.2
    rw [hl]
    apply List.mem_append_left
    show _ ∈ ((ToBinary (ToBinary st (.term t1) n).2 (.term t2) n).2).decomps
    simp [ToBinary]
  have hb1 : ∀ i, i < n →
      varVal σ (.term ((ToBinary st (.term t1) n).1.getD i ⟨0, 0⟩)) =
        (((varVal σ (.term t1)).val / 2 ^ i % 2 : ℕ) : ZMod p) := by
    intro i hi
    have hbit := hd1 i (by simp [hi])
    simp only [List.map_map] at hbit
    rw [range_map_getD _ n i hi] at hbit
    show varVal σ (.term (((List.range n).map
      (fun i => (⟨st.nbVars + i, 1⟩ : Term (ZMod p)))).getD i ⟨0, 0⟩)) = _
    rw [range_map_getD _ n i hi]
    simp only [varVal_term, one_mul]
    exact hbit
  have hb2 : ∀ i, i < n →
      varVal σ (.term ((ToBinary (ToBinary st (.term t1) n).2
        (.term t2) n).1.getD i ⟨0, 0⟩)) =
        (((varVal σ (.term t2)).val / 2 ^ i % 2 : ℕ) : ZMod p) := by
    intro i hi
    have hbit := hd2 i (by simp [hi])
    simp only [List.map_map] at hbit
    rw [range_map_getD _ n i hi] at hbit
    show varVal σ (.term (((List.range n).map
      (fun i => (⟨st.nbVars + n + i, 1⟩ : Term (ZMod p)))).getD i ⟨0, 0⟩)) = _
    rw [range_map_getD _ n i hi]
    simp only [varVal_term, one_mul]
    exact hbit
  have hinit : (varVal σ (.const 0) : ZMod p) =
      cmpEnc p ((varVal σ (.term t1)).val / 2 ^ n)
        ((varVal σ (.term t2)).val / 2 ^ n) := by
    rw [Nat.div_eq_of_lt hX, Nat.div_eq_of_lt hY]
    unfold cmpEnc
    simp
  have hval := v2 hsat.1
  rw [hinit] at hval
  rw [cmpValFold_correct hp σ _ _ n (varVal σ (.term t1)).val
    (varVal σ (.term t2)).val hb1 hb2 n le_rfl] at hval
  obtain ⟨h1, h0, hm1⟩ :=
    cmpEnc_iff hp (varVal σ (.term t1)).val (varVal σ (.term t2)).val
  rw [hval]
  exact ⟨h1, h0, hm1⟩

/-- Witness for C5 at `p = 5`, one bit, `x = 1 > y = 0`: the explicit
assignment (inputs, bits, hint outputs and intermediate wires) satisfies
the compiled state and the theorem yields the result `1`. -/
theorem claim_C5_Cmp_witness :
    ∃ r st',
      Cmp (⟨2, [], [], [], [], [], false⟩ : BuilderState (ZMod 5)) 1
        (.term ⟨0, 1⟩) (.term ⟨1, 1⟩) = (some r, st') ∧
      Sat (fun v => ([1, 0, 1, 0, 0, 1, 1, 0, 1, 0, 1, 1, 1] :
        List (ZMod 5)).getD v 0) st' ∧
      varVal (fun v => ([1, 0, 1, 0, 0, 1, 1, 0, 1, 0, 1, 1, 1] :
        List (ZMod 5)).getD v 0) r = 1 := by
  obtain ⟨r, st', heq, hsem⟩ := claim_C5_Cmp 5 (by norm_num) 1
    ⟨2, [], [], [], [], [], false⟩ ⟨0, 1⟩ ⟨1, 1⟩
  have hst : st' =
      (Cmp (⟨2, [], [], [], [], [], false⟩ : BuilderState (ZMod 5)) 1
        (.term ⟨0, 1⟩) (.term ⟨1, 1⟩)).2 := by rw [heq]
  have hsat : Sat (fun v => ([1, 0, 1, 0, 0, 1, 1, 0, 1, 0, 1, 1, 1] :
      List (ZMod 5)).getD v 0) st' := by
    rw [hst]
    decide
  refine ⟨r, st', heq, hsat, ?_⟩
  exact (hsem _ hsat (by decide) (by decide)).1.mpr (by decide)

end SCS
